import Mathlib

/-!
Shallow embedding of the waveguide path-rounding core of zeropdk
(`zeropdk/layout/waveguide_rounding.py`, with the planar primitives from
`zeropdk/layout/geometry.py` and `zeropdk/klayout_extend/point.py`, and the
polygon clipping routine from `zeropdk/klayout_extend/polygon.py`).

Python floats are idealized as real numbers.  Python exceptions
(`ClearanceRewind`, `ClearanceForward`, `RuntimeError`, `AssertionError`,
`ValueError` from math-domain violations) are modelled with `Except`.
The unbounded `while` loop of `compute_rounded_path` is modelled with an
explicit fuel parameter, initialized to the number of waypoints exactly as the
loop can iterate at most once per point consumed; runs that exhaust fuel
return a distinguished error and are never reported as normal returns.
-/

set_option maxHeartbeats 1000000

noncomputable section

open Classical

/-- 2-D point or vector with real coordinates, standing for klayout's
`DPoint`/`DVector` as patched in `zeropdk/klayout_extend/point.py`. -/
@[ext]
structure Pt where
  x : ℝ
  y : ℝ

instance : Add Pt := ⟨fun p q => ⟨p.x + q.x, p.y + q.y⟩⟩

instance : Sub Pt := ⟨fun p q => ⟨p.x - q.x, p.y - q.y⟩⟩

instance : Neg Pt := ⟨fun p => ⟨-p.x, -p.y⟩⟩

/-- `factor * P` (`pyaPoint__rmul__` with a `Number` factor). -/
instance : HMul ℝ Pt Pt := ⟨fun r p => ⟨r * p.x, r * p.y⟩⟩

/-- `P * factor` (`pyaPoint__mul__` with a `Number` factor). -/
instance : HMul Pt ℝ Pt := ⟨fun p r => ⟨p.x * r, p.y * r⟩⟩

/-- `P * Q` is the scalar product (`pyaPoint__mul__` with a point-like factor:
`self.x * factor.x + self.y * factor.y`). -/
instance : HMul Pt Pt ℝ := ⟨fun p q => p.x * q.x + p.y * q.y⟩

/-- `P / dividend` (`pyaPoint__truediv__`), componentwise. -/
instance : HDiv Pt ℝ Pt := ⟨fun p r => ⟨p.x / r, p.y / r⟩⟩

/-- `P.norm()` (`pyaPoint_norm`): the L2 norm `sqrt(x**2 + y**2)`. -/
def Pt.norm (p : Pt) : ℝ := Real.sqrt (p.x ^ 2 + p.y ^ 2)

/-- `geometry.rotate(point, angle_rad)`: counter-clockwise rotation about the
origin. -/
def rotate (point : Pt) (angle_rad : ℝ) : Pt :=
  ⟨point.x * Real.cos angle_rad - point.y * Real.sin angle_rad,
   point.y * Real.cos angle_rad + point.x * Real.sin angle_rad⟩

/-- `geometry.cross_prod(p1, p2) = p1.x * p2.y - p1.y * p2.x`. -/
def cross_prod (p1 p2 : Pt) : ℝ := p1.x * p2.y - p1.y * p2.x

/-- Python's float modulo `a % b = a - b * floor(a / b)` (the result has the
sign of the divisor). -/
def pymod (a b : ℝ) : ℝ := a - b * (⌊a / b⌋ : ℤ)

/-- The C/Python `math.atan2(y, x)`: the angle of the vector `(x, y)` in
`(-pi, pi]`, with `atan2(0, 0) = 0`, `atan2(y, 0) = +-pi/2` and
`atan2(0, x) = pi` for `x < 0`. -/
def atan2 (y x : ℝ) : ℝ :=
  if 0 < x then Real.arctan (y / x)
  else if x < 0 then
    (if y < 0 then Real.arctan (y / x) - Real.pi else Real.arctan (y / x) + Real.pi)
  else if 0 < y then Real.pi / 2
  else if y < 0 then -(Real.pi / 2)
  else 0

/-- `geometry.fix_angle(angle) = (angle + pi) % (2 pi) - pi`, mapping any angle
into `[-pi, pi)`. -/
def fix_angle (angle : ℝ) : ℝ := pymod (angle + Real.pi) (2 * Real.pi) - Real.pi

/-- `math.copysign(x, s)`: `|x|` with the sign of `s`. -/
def copysign (x s : ℝ) : ℝ := if s < 0 then -|x| else |x|

namespace Rounding

/-- `waveguide_rounding.angle_between(v1, v0)`: rotation angle from `v0` to
`v1`, counter-clockwise, in `[-pi, pi)`. -/
def angle_between (v1 v0 : Pt) : ℝ :=
  fix_angle (atan2 v1.y v1.x - atan2 v0.y v0.x)

/-- `waveguide_rounding.project(P, A, B)`: orthogonal projection of `P` onto
the line through `A` and `B`. -/
def project (P A B : Pt) : Pt :=
  let AB := B - A
  let eAB := AB / AB.norm
  A + ((P - A) * eAB) * eAB

/-- `waveguide_rounding.bisect(V1, V2)`: unit bisector of two vectors. -/
def bisect (V1 V2 : Pt) : Pt :=
  let V := V1.norm * V2 + V2.norm * V1
  V / V.norm

/-- Errors and control-flow signals of the rounding engine.  `rewind` and
`forward` are the `ClearanceRewind` / `ClearanceForward` exceptions; `notEnough`
is the fatal `RuntimeError("Not enough space for enough turns ...")`;
`assertErr` covers failing `assert` statements (and a Python `TypeError` from
calling `solve_2` with fewer than two points); `domain` is a `ValueError` from
`math.acos` or `math.sqrt` outside their domains; `fuel` marks loop-fuel
exhaustion of the model (not a behavior of the source). -/
inductive Err where
  | rewind | forward | notEnough | assertErr | domain | fuel
deriving DecidableEq

/-- `waveguide_rounding.intersect(A, eA, B, eB)`: line-line intersection by
Cramer's rule.  The source asserts `abs(cross_prod(eA, eB)) > 0`, which fails
exactly when the cross product is zero. -/
def intersect (A eA B eB : Pt) : Except Err Pt :=
  if cross_prod eA eB = 0 then .error .assertErr
  else .ok (A + (cross_prod (B - A) eB / cross_prod eA eB) * eA)

/-- `_min_clearance(angle_rad, radius) = abs(radius / tan(angle_rad / 2))`,
returning `inf` (modelled as `none`) on a `ZeroDivisionError`, i.e. when
`tan(angle_rad / 2) == 0`.  (The `lru_cache` decorator is semantically
transparent for this pure function.) -/
def min_clearance (angle_rad radius : ℝ) : Option ℝ :=
  if Real.tan (angle_rad / 2) = 0 then none
  else some |radius / Real.tan (angle_rad / 2)|

/-- Path elements: `_Line(P1, P2)` and `_Arc(P1, C, P2, ccw)`.  (The `_Arc`
constructor's `assert isclose((P2-C).norm(), (P1-C).norm(), abs_tol=1e-9)`
holds exactly for every arc this engine constructs and is not modelled as a
failure path.) -/
inductive Element where
  | line (P1 P2 : Pt)
  | arc (P1 C P2 : Pt) (ccw : Bool)

/-- First point of a path element. -/
def Element.start : Element → Pt
  | .line P1 _ => P1
  | .arc P1 _ _ _ => P1

/-- Last point of a path element. -/
def Element.stop : Element → Pt
  | .line _ P2 => P2
  | .arc _ _ P2 _ => P2

/-- `solve_2(A, B)`: a single straight segment, with no points left over. -/
def solve_2 (A B : Pt) : List Element × List Pt := ([.line A B], [])

/-- `solve_3(A, B, C, radius)`: inscribe a tangent arc at the corner `B`.
Collinear points (vertex angle congruent to `pi` mod `2 pi`) short-circuit to
no elements.  The clearance is computed for `radius - 0.001` (a numerical-slack
adjustment in the source); a `None` clearance stands for `inf`, and since
`len1 < inf` always holds, it raises `ClearanceRewind` exactly as the source
does. -/
def solve_3 (A B C : Pt) (radius : ℝ) : Except Err (List Element × List Pt) :=
  let α := angle_between (A - B) (C - B)
  if pymod α (2 * Real.pi) = Real.pi then .ok ([], [A, C])
  else
    match min_clearance α (radius - 0.001) with
    | none => .error .rewind
    | some clear =>
      let len1 := (B - A).norm
      let len2 := (C - B).norm
      if len1 < clear then .error .rewind
      else if len2 < clear then .error .forward
      else
        let e1 := (B - A) / len1
        let e2 := (C - B) / len2
        let arc_center := B + (0.5 : ℝ) * (-e1 * clear + e2 * clear) / Real.cos (α / 2) ^ 2
        .ok ([.line A (B - e1 * clear),
              .arc (B - e1 * clear) arc_center (B + e2 * clear)
                (if 0 < α then true else false)],
             [B + e2 * clear, C])

/-- `_solve_Z_angle(α1, α2, BC, R)`.  The source's `assert α1 * α2` fails
exactly when the product is zero (float truthiness), and `math.acos` raises
`ValueError` when its argument lies outside `[-1, 1]`. -/
def solve_Z_angle (a1 a2 BC R : ℝ) : Except Err ℝ :=
  if a1 * a2 = 0 then .error .assertErr
  else
    let sign := a1 / |a1|
    let α1 := |a1|
    let α2 := |a2|
    let αprime := Real.arctan (0.5 / Real.tan α1 + 0.5 / Real.tan α2)
    let A := 2 / Real.cos αprime
    let arg := 1 / A * (1 / Real.sin α1 + 1 / Real.sin α2 - BC / R)
    if 1 < |arg| then .error .domain
    else .ok ((-αprime + Real.arccos arg) * sign)

/-- `solve_Z(A, B, C, D, radius)`: S/Z-shaped double-arc corner. -/
def solve_Z (A B C D : Pt) (radius : ℝ) : Except Err (List Element × List Pt) := do
  let AB := B - A
  let BC := C - B
  let CD := D - C
  let α1 := angle_between (-BC) AB
  let α2 := angle_between (-BC) CD
  let γ ← solve_Z_angle α1 α2 BC.norm radius
  let eX1X2 := rotate (-BC) (-γ) / BC.norm
  let x := radius / BC.norm * (1 - Real.sin |α1 - γ|) / Real.sin |α1|
  let X := B + x * BC
  let X1 := X - eX1X2 * radius
  let X2 := X + eX1X2 * radius
  let Aprime := X1 + rotate (X - X1) (copysign (Real.pi / 2) α1 + γ - α1)
  let Dprime := X2 + rotate (X - X2) (copysign (Real.pi / 2) α2 + γ - α2)
  return ([.line A Aprime,
           .arc Aprime X1 X (if α1 < 0 then true else false),
           .arc X X2 Dprime (if 0 < α1 then true else false)],
          [Dprime, D])

/-- `solve_U(A, B, C, D, radius)`: U-turn (opposite-sign corner angles).  The
reassignment `XB, XC = B - X, C - X` in the source is dead code and omitted.
`compute_A_prime` is inlined twice; its `math.sqrt` raises on a negative
argument.  When the bisector-intersection height `h` is at least
`radius - 0.001`, the corner degrades to two `solve_3` calls with radius `h`
(whose clearance signals propagate out uncaught, as in Python). -/
def solve_U (A B C D : Pt) (radius : ℝ) : Except Err (List Element × List Pt) := do
  let XB := bisect (A - B) (C - B)
  let XC := bisect (B - C) (D - C)
  let orientation := if 0 < cross_prod XB XC then true else false
  let X ← intersect B XB C XC
  let Fprime := project X B C
  let h := (Fprime - X).norm
  if radius - 0.001 ≤ h then
    let s1 ← solve_3 A B C h
    match s1.2 with
    | [] => .error .assertErr
    | r0 :: _ =>
      let s2 ← solve_3 r0 C D h
      return (s1.1 ++ s2.1, s2.2)
  else
    let eAB := (B - A) / (B - A).norm
    let eDC := (C - D) / (C - D).norm
    let Eprime := project X A B
    let Gprime := project X D C
    let E := X + (Eprime - X) * radius / h
    let G := X + (Gprime - X) * radius / h
    let DE := (E - Eprime).norm
    if DE * (4 * radius - DE) < 0 then .error .domain
    else
      let L1 := Real.sqrt (DE * (4 * radius - DE))
      let Aprime := Eprime - eAB * L1
      let DG := (G - Gprime).norm
      if DG * (4 * radius - DG) < 0 then .error .domain
      else
        let L2 := Real.sqrt (DG * (4 * radius - DG))
        let Dprime := Gprime - eDC * L2
        let Asec := Aprime + (E - X)
        let Dsec := Dprime + (G - X)
        let H := (0.5 : ℝ) * (Asec + X)
        let II := (0.5 : ℝ) * (Dsec + X)
        return ([.line A Aprime,
                 .arc Aprime Asec H (!orientation),
                 .arc H X II orientation,
                 .arc II Dsec Dprime (!orientation)],
                [Dprime, D])

/-- `solve_4(A, B, C, D, radius)`: dispatch on the signs of the two corner
angles. -/
def solve_4 (A B C D : Pt) (radius : ℝ) : Except Err (List Element × List Pt) :=
  let AB := B - A
  let BC := C - B
  let CD := D - C
  let α1 := angle_between (-BC) AB
  let α2 := angle_between (-BC) CD
  if 0 < α1 * α2 then solve_Z A B C D radius else solve_U A B C D radius

/-- The `while len(points_left) > 2` loop of `compute_rounded_path`, with the
loop state `(rounded_path, old_rounded_path, points_left, old_points_left,
can_rewind)` passed explicitly and a fuel counter standing in for the loop's
(unbounded) iteration.  On exit exactly two points are left; `solve_2` emits
the final line and the source's trailing `assert len(points_left) == 0` holds.
Fewer than two points at exit would make `solve_2(*points_left[0:2])` a
`TypeError` in Python, modelled as `assertErr`. -/
def crpLoop (radius : ℝ) :
    Nat → List Element → List Element → List Pt → List Pt → Bool →
    Except Err (List Element)
  | _, rp, _, [a, b], _, _ => .ok (rp ++ [.line a b])
  | 0, _, _, _ :: _ :: _ :: _, _, _ => .error .fuel
  | fuel + 1, rp, orp, A :: B :: C :: rest3, opl, cr =>
    match solve_3 A B C radius with
    | .ok (sol, rest) =>
        crpLoop radius fuel (rp ++ sol) rp (rest ++ rest3) (A :: B :: C :: rest3) true
    | .error .rewind =>
        if cr then
          match opl with
          | O :: P :: Q :: R :: orest =>
            match solve_4 O P Q R radius with
            | .ok (sol, rest) =>
                crpLoop radius fuel (orp ++ sol) orp (rest ++ orest)
                  (O :: P :: Q :: R :: orest) false
            | .error e => .error e
          | _ => .error .notEnough
        else .error .notEnough
    | .error .forward =>
        match rest3 with
        | D :: rest4 =>
          match solve_4 A B C D radius with
          | .ok (sol, rest) =>
              crpLoop radius fuel (rp ++ sol) rp (rest ++ rest4)
                (A :: B :: C :: D :: rest4) false
          | .error e => .error e
        | [] => .error .notEnough
    | .error e => .error e
  | _, _, _, _, _, _ => .error .assertErr

/-- `compute_rounded_path(points, radius)`: two points short-circuit to a
single line; fewer than three points otherwise fail the sanity `assert`;
otherwise the solver loop runs with `rounded_path = old_rounded_path = []`,
`points_left = old_points_left = points` and `can_rewind = False`. -/
def compute_rounded_path (points : List Pt) (radius : ℝ) :
    Except Err (List Element) :=
  match points with
  | [A, B] => .ok [.line A B]
  | ps =>
    if ps.length < 3 then .error .assertErr
    else crpLoop radius ps.length [] [] ps ps false

/-- Width payload of a `_Path`-like object: `_Path` carries a single scalar
width, `_Taper` carries the two-element list `[w1, w2]`. -/
inductive WidthsArg where
  | single (w : ℝ)
  | pair (w1 w2 : ℝ)
deriving DecidableEq

/-- `_Path(points, widths)` and `_Taper(P1, P2, w1, w2)` (a `_Taper` is a
`_Path` with `points = [P1, P2]` and `widths = [w1, w2]`). -/
inductive TElem where
  | tpath (points : List Pt) (widths : WidthsArg)
  | taper (P1 P2 : Pt) (w1 w2 : ℝ)

/-- The `.points` attribute of a `_Path` / `_Taper`. -/
def TElem.points : TElem → List Pt
  | .tpath pts _ => pts
  | .taper P1 P2 _ _ => [P1, P2]

/-- The `.widths` attribute of a `_Path` / `_Taper`. -/
def TElem.widths : TElem → WidthsArg
  | .tpath _ w => w
  | .taper _ _ w1 w2 => .pair w1 w2

/-- The adaptive arc sampler behind `_Arc.get_points` (`sample_function` with
tolerance `0.002 / r` plus the two extra near-endpoint samples): an external
collaborator of this core, abstracted as a parameter mapping
`(P1, C, P2, ccw)` to the sampled point list. -/
def ArcSampler : Type := Pt → Pt → Pt → Bool → List Pt

/-- `get_points` of a path element: a `_Line` contributes its two endpoints, a
`_Arc` is sampled by the adaptive sampler. -/
def Element.get_points (sampler : ArcSampler) : Element → List Pt
  | .line P1 P2 => [P1, P2]
  | .arc P1 C P2 ccw => sampler P1 C P2 ccw

/-- `_Line.get_length() = (P2 - P1).norm()`. -/
def line_length (P1 P2 : Pt) : ℝ := (P2 - P1).norm

/-- `_compute_tapered_line(line, waveguide_width, taper_width, taper_length)`:
lines shorter than `30 + 2 * taper_length` stay a single constant-width path;
otherwise they split into taper, constant middle run, taper. -/
def compute_tapered_line (P1 P2 : Pt)
    (waveguide_width taper_width taper_length : ℝ) : List TElem :=
  let minimum_length := 30 + 2 * taper_length
  if line_length P1 P2 < minimum_length then
    [.tpath [P1, P2] (.single waveguide_width)]
  else
    let u := (P2 - P1) / (P2 - P1).norm
    [.taper P1 (P1 + u * taper_length) waveguide_width taper_width,
     .tpath [P1 + u * taper_length, P2 - u * taper_length] (.single taper_width),
     .taper (P2 - u * taper_length) P2 taper_width waveguide_width]

/-- `compute_untapered_path(path, waveguide_width)`. -/
def compute_untapered_path (sampler : ArcSampler) (path : List Element)
    (waveguide_width : ℝ) : List TElem :=
  path.map fun element => .tpath (element.get_points sampler) (.single waveguide_width)

/-- `compute_tapered_path(path, waveguide_width, taper_width, taper_length)`:
`_Line` elements go through `_compute_tapered_line`; `_Arc` elements become a
single constant-width path over their sampled points. -/
def compute_tapered_path (sampler : ArcSampler) (path : List Element)
    (waveguide_width taper_width taper_length : ℝ) : List TElem :=
  path.flatMap fun element =>
    match element with
    | .line P1 P2 => compute_tapered_line P1 P2 waveguide_width taper_width taper_length
    | .arc P1 C P2 ccw => [.tpath (sampler P1 C P2 ccw) (.single waveguide_width)]

/-- `unique_points(point_list)`: drop consecutive points closer than `1e-4`. -/
def uniqLoop (previous_point : Pt) : List Pt → List Pt
  | [] => []
  | point :: rest =>
    if 1e-4 < (point - previous_point).norm
    then point :: uniqLoop point rest
    else uniqLoop previous_point rest

/-- `unique_points(point_list)`: lists shorter than 2 are returned unchanged;
otherwise the first point is kept and later points are kept only when farther
than `1e-4` from the previously kept one. -/
def unique_points (point_list : List Pt) : List Pt :=
  if point_list.length < 2 then point_list
  else
    match point_list with
    | [] => []
    | p0 :: rest => p0 :: uniqLoop p0 rest

/-- `np.linspace(a, b, n)`: `n` evenly spaced samples from `a` to `b`
inclusive. -/
def linspace (a b : ℝ) (n : ℕ) : List ℝ :=
  (List.range n).map fun i => a + (b - a) * i / (n - 1)

/-- One step of the `for element in waveguide_path` flattening loop of
`layout_waveguide_from_points`: a scalar width raises `TypeError` at `len()`
and is broadcast (`np.ones(n_points) * width`); a two-element width list is
extended directly when the element has exactly two points (`len(width) ==
n_points`) and otherwise linearly interpolated over the element's points. -/
def drawAppend (acc : List Pt × List ℝ) (element : TElem) : List Pt × List ℝ :=
  let pts := element.points
  let n_points := pts.length
  match element.widths with
  | .single w => (acc.1 ++ pts, acc.2 ++ (List.replicate n_points w))
  | .pair w1 w2 =>
    if n_points = 2 then (acc.1 ++ pts, acc.2 ++ [w1, w2])
    else (acc.1 ++ pts, acc.2 ++ linspace w1 w2 n_points)

/-- The `deleting repeated points` loop of `layout_waveguide_from_points`:
drop a drawn point (and its width) when it equals the previously kept point. -/
def drawDedup : Option Pt → List Pt → List ℝ → List Pt × List ℝ
  | _, [], _ => ([], [])
  | _, _ :: _, [] => ([], [])
  | cur, p :: ps, w :: ws =>
    if cur = some p then drawDedup cur ps ws
    else
      let rest := drawDedup (some p) ps ws
      (p :: rest.1, w :: rest.2)

/-- Width argument of a `layout_waveguide` call: the requested scalar width or
the flattened per-point width list. -/
inductive WidthParam where
  | scalar (w : ℝ)
  | ofList (ws : List ℝ)
deriving DecidableEq

/-- One call to the external rasterizer `layout_waveguide(cell, layer, points,
width, smooth)` — the observable effect of `layout_waveguide_from_points`. -/
structure DrawCall where
  points : List Pt
  width : WidthParam
  smooth : Bool

/-- `AssertionError` of `layout_waveguide_from_points`'s
`assert radius > width / 2`. -/
inductive LayoutErr where
  | assertionError
deriving DecidableEq

/-- `layout_waveguide_from_points(cell, layer, points, width, radius,
taper_width, taper_length)`, modelled by the list of `layout_waveguide` calls
it issues (the cell is returned unchanged except for these insertions).  On
any exception from `compute_rounded_path` the error is printed and the raw
deduplicated waypoints are laid out with the fixed width `0.1` (`smooth`
defaulting to `False` in `layout_waveguide`). -/
def layout_waveguide_from_points (sampler : ArcSampler) (points : List Pt)
    (width radius : ℝ) (taper_width taper_length : Option ℝ) :
    Except LayoutErr (List DrawCall) :=
  if ¬ (width / 2 < radius) then .error .assertionError
  else
    let pts := unique_points points
    if pts.length < 2 then .ok []
    else
      match compute_rounded_path pts radius with
      | .error _ => .ok [⟨pts, .scalar 0.1, false⟩]
      | .ok rounded_path =>
        let waveguide_path :=
          match taper_width, taper_length with
          | some tw, some tl => compute_tapered_path sampler rounded_path width tw tl
          | _, _ => compute_untapered_path sampler rounded_path width
        let drawn := waveguide_path.foldl drawAppend ([], [])
        let deduped := drawDedup none drawn.1 drawn.2
        .ok [⟨deduped.1, .ofList deduped.2, false⟩]

end Rounding

namespace PolyClip

/-- `check_within_bounds(p)` for normalized bounds. -/
def within (xb yb : ℝ × ℝ) (p : Pt) : Prop :=
  xb.1 ≤ p.x ∧ p.x ≤ xb.2 ∧ yb.1 ≤ p.y ∧ p.y ≤ yb.2

/-- `np.interp(x, [x0, x1], [y0, y1])` for `x0 < x < x1`: linear
interpolation. -/
def interp (x x0 x1 y0 y1 : ℝ) : ℝ := y0 + (y1 - y0) * (x - x0) / (x1 - x0)

/-- `intersect_left_boundary(p1, p2, x_bounds, y_bounds)`: the crossing of the
segment with the left boundary, when the left endpoint is strictly outside, the
right endpoint strictly crosses, and the intersection is strictly between the
vertical bounds. -/
def intersect_left_boundary (p1 p2 : Pt) (xb yb : ℝ × ℝ) : Option Pt :=
  let left_most := if p1.x < p2.x then p1 else p2
  let right_most := if p1.x < p2.x then p2 else p1
  if left_most.x < xb.1 then
    if xb.1 < right_most.x then
      let y_intersect := interp xb.1 left_most.x right_most.x left_most.y right_most.y
      if yb.1 < y_intersect ∧ y_intersect < yb.2 then
        some ⟨xb.1, y_intersect⟩
      else none
    else none
  else none

/-- `rotate_bounds90(x_bounds, y_bounds, i_times)`. -/
def rotate_bounds90 (xb yb : ℝ × ℝ) : ℕ → (ℝ × ℝ) × (ℝ × ℝ)
  | 0 => (xb, yb)
  | i + 1 =>
    let b := rotate_bounds90 xb yb i
    ((-b.2.2, -b.2.1), (b.1.1, b.1.2))

/-- The inner `intersect(p1, p2, x_bounds, y_bounds)` of `clip`: test the edge
against each of the four boundaries by rotating everything by `i * pi / 2`,
collecting the intersections (rotated back) and the index of the last
intersected boundary. -/
def clip_intersect (p1 p2 : Pt) (xb yb : ℝ × ℝ) : List Pt × Option ℤ :=
  (List.range 4).foldl
    (fun acc (i : ℕ) =>
      let p1i := rotate p1 ((i : ℝ) * Real.pi / 2)
      let p2i := rotate p2 ((i : ℝ) * Real.pi / 2)
      let b := rotate_bounds90 xb yb i
      match intersect_left_boundary p1i p2i b.1 b.2 with
      | some p => (acc.1 ++ [rotate p (-((i : ℝ) * Real.pi / 2))], some (i : ℤ))
      | none => acc)
    ([], none)

/-- `boundary_vertex(edge_from, edge_to)`: the box corner between two adjacent
boundary edges (left 0, top 1, right 2, bottom 3), with Python's floor `//`
and nonnegative `%`. -/
def boundary_vertex (xb yb : ℝ × ℝ) (edge_from edge_to : ℤ) : Pt :=
  let vertical_edge := if Int.emod edge_from 2 = 0 then edge_from else edge_to
  let horizontal_edge := if Int.emod edge_from 2 = 0 then edge_to else edge_from
  let x := if Int.emod (Int.fdiv vertical_edge 2) 2 = 0 then xb.1 else xb.2
  let y := if Int.emod (1 - Int.fdiv (horizontal_edge - 1) 2) 2 = 0 then yb.1 else yb.2
  ⟨x, y⟩

/-- The `while i % 4 != last_intersect` corner-insertion loop, which advances
at most four times (`last` is one of 0..3). -/
def cornerRun (xb yb : ℝ × ℝ) (last : ℤ) : ℕ → ℤ → List Pt
  | 0, _ => []
  | n + 1, i =>
    if Int.emod i 4 = last then []
    else boundary_vertex xb yb i (i + 1) :: cornerRun xb yb last n (i + 1)

/-- The `for idx, point in enumerate(...)` search for the first vertex within
bounds (`None` when the `for` falls through to its `else`). -/
def findWithin (xb yb : ℝ × ℝ) : List Pt → Option ℕ
  | [] => none
  | p :: ps =>
    if within xb yb p then some 0
    else (findWithin xb yb ps).map Nat.succ

/-- The corner vertices inserted when the path re-enters the box at a
different boundary edge than it last left (`previous_intersect is not None and
last_intersect is not None and last_intersect != previous_intersect` and the
current vertex is within bounds). -/
def cornersFor (xb yb : ℝ × ℝ) (point : Pt)
    (previous_intersect last_intersect : Option ℤ) : List Pt :=
  match previous_intersect, last_intersect with
  | some pi', some li =>
    if li ≠ pi' ∧ within xb yb point then cornerRun xb yb li 4 pi' else []
  | _, _ => []

/-- `previous_intersect` is updated only when the edge actually intersected a
boundary (`if last_intersect is not None`). -/
def nextIntersect (previous_intersect last_intersect : Option ℤ) : Option ℤ :=
  match last_intersect with
  | some li => some li
  | none => previous_intersect

/-- The main edge-walking loop of `clip`: for each vertex, collect the
boundary-corner vertices inserted when re-entering the box at a different edge,
then the edge's boundary intersections, then the vertex itself when it is
within bounds. -/
def clipLoop (xb yb : ℝ × ℝ) :
    List Pt → Pt → Option ℤ → List Pt
  | [], _, _ => []
  | point :: rest, previous_point, previous_intersect =>
    let r := clip_intersect previous_point point xb yb
    cornersFor xb yb point previous_intersect r.2 ++ r.1 ++
      (if within xb yb point then [point] else []) ++
      clipLoop xb yb rest point (nextIntersect previous_intersect r.2)

/-- `_SimplePolygon.clip(polygon, x_bounds, y_bounds)` from
`zeropdk/klayout_extend/polygon.py`, on the polygon's vertex list, restricted
to finite bounds.  If no vertex lies within bounds, the source returns the
four boundary vertices `boundary_vertex(i, i-1)` for `i = 4, 3, 2, 1`;
otherwise the vertex list is rotated to start just after the first inside
vertex and the edge walk runs with `previous_point` the rotated list's last
vertex. -/
def clip (polygon_dpoints : List Pt) (x_bounds y_bounds : ℝ × ℝ) : List Pt :=
  let xb := (min x_bounds.1 x_bounds.2, max x_bounds.1 x_bounds.2)
  let yb := (min y_bounds.1 y_bounds.2, max y_bounds.1 y_bounds.2)
  match findWithin xb yb polygon_dpoints with
  | none =>
    [boundary_vertex xb yb 4 3, boundary_vertex xb yb 3 2,
     boundary_vertex xb yb 2 1, boundary_vertex xb yb 1 0]
  | some idx =>
    let pts := polygon_dpoints.drop (idx + 1) ++ polygon_dpoints.take (idx + 1)
    match pts.getLast? with
    | none => []
    | some previous_point => clipLoop xb yb pts previous_point none

end PolyClip

/-! ### Componentwise lemmas for the point arithmetic -/

@[simp] theorem Pt.add_x (p q : Pt) : (p + q).x = p.x + q.x := rfl

@[simp] theorem Pt.add_y (p q : Pt) : (p + q).y = p.y + q.y := rfl

@[simp] theorem Pt.sub_x (p q : Pt) : (p - q).x = p.x - q.x := rfl

@[simp] theorem Pt.sub_y (p q : Pt) : (p - q).y = p.y - q.y := rfl

@[simp] theorem Pt.neg_x (p : Pt) : (-p).x = -p.x := rfl

@[simp] theorem Pt.neg_y (p : Pt) : (-p).y = -p.y := rfl

@[simp] theorem Pt.smul_x (r : ℝ) (p : Pt) : (r * p).x = r * p.x := rfl

@[simp] theorem Pt.smul_y (r : ℝ) (p : Pt) : (r * p).y = r * p.y := rfl

@[simp] theorem Pt.muls_x (p : Pt) (r : ℝ) : (p * r).x = p.x * r := rfl

@[simp] theorem Pt.muls_y (p : Pt) (r : ℝ) : (p * r).y = p.y * r := rfl

@[simp] theorem Pt.div_x (p : Pt) (r : ℝ) : (p / r).x = p.x / r := rfl

@[simp] theorem Pt.div_y (p : Pt) (r : ℝ) : (p / r).y = p.y / r := rfl

@[simp] theorem Pt.dot_def (p q : Pt) : (p * q : ℝ) = p.x * q.x + p.y * q.y := rfl

theorem Pt.norm_def (p : Pt) : p.norm = Real.sqrt (p.x ^ 2 + p.y ^ 2) := rfl

theorem Pt.norm_mk (a b : ℝ) : Pt.norm ⟨a, b⟩ = Real.sqrt (a ^ 2 + b ^ 2) := rfl

theorem Pt.norm_nonneg (p : Pt) : 0 ≤ p.norm := Real.sqrt_nonneg _

theorem Pt.norm_mk_right (a : ℝ) : Pt.norm ⟨a, 0⟩ = |a| := by
  rw [Pt.norm_mk]
  simpa using Real.sqrt_sq_eq_abs a

theorem Pt.norm_mk_up (b : ℝ) : Pt.norm ⟨0, b⟩ = |b| := by
  rw [Pt.norm_mk]
  simpa using Real.sqrt_sq_eq_abs b

theorem Pt.norm_pos (p : Pt) (h : p ≠ ⟨0, 0⟩) : 0 < p.norm := by
  rw [Pt.norm_def]
  apply Real.sqrt_pos.mpr
  rcases lt_or_eq_of_le (by positivity : (0 : ℝ) ≤ p.x ^ 2 + p.y ^ 2) with h' | h'
  · exact h'
  · exfalso
    apply h
    have hx : p.x = 0 := by nlinarith [sq_nonneg p.x, sq_nonneg p.y]
    have hy : p.y = 0 := by nlinarith [sq_nonneg p.x, sq_nonneg p.y]
    ext <;> simp [hx, hy]

theorem Pt.norm_sq (p : Pt) : p.norm ^ 2 = p.x ^ 2 + p.y ^ 2 := by
  rw [Pt.norm_def, Real.sq_sqrt (by positivity)]

/-! ### Python modulo and `fix_angle` -/

theorem pymod_eq (a b : ℝ) (hb : 0 < b) (k : ℤ) (h1 : b * k ≤ a) (h2 : a < b * (k + 1)) :
    pymod a b = a - b * k := by
  unfold pymod
  have hfl : ⌊a / b⌋ = k := by
    rw [Int.floor_eq_iff]
    constructor
    · rw [le_div_iff₀ hb]
      linarith [h1]
    · rw [div_lt_iff₀ hb]
      linarith [h2]
  rw [hfl]

theorem pymod_nonneg (a b : ℝ) (hb : 0 < b) : 0 ≤ pymod a b := by
  unfold pymod
  have h := Int.floor_le (a / b)
  have := (mul_le_mul_left hb).mpr h
  rw [mul_div_cancel₀ a (ne_of_gt hb)] at this
  linarith

theorem pymod_lt (a b : ℝ) (hb : 0 < b) : pymod a b < b := by
  unfold pymod
  have h := Int.lt_floor_add_one (a / b)
  have := (mul_lt_mul_left hb).mpr h
  rw [mul_div_cancel₀ a (ne_of_gt hb), mul_add, mul_one] at this
  linarith

theorem two_pi_pos : 0 < 2 * Real.pi := by positivity

theorem fix_angle_mem (x : ℝ) :
    -Real.pi ≤ fix_angle x ∧ fix_angle x < Real.pi := by
  unfold fix_angle
  have h1 := pymod_nonneg (x + Real.pi) (2 * Real.pi) two_pi_pos
  have h2 := pymod_lt (x + Real.pi) (2 * Real.pi) two_pi_pos
  constructor <;> linarith

theorem fix_angle_eq_self (x : ℝ) (h1 : -Real.pi ≤ x) (h2 : x < Real.pi) :
    fix_angle x = x := by
  unfold fix_angle
  rw [pymod_eq _ _ two_pi_pos 0 (by norm_num; linarith) (by push_cast; linarith)]
  ring

theorem fix_angle_pi : fix_angle Real.pi = -Real.pi := by
  unfold fix_angle
  rw [pymod_eq _ _ two_pi_pos 1 (by push_cast; linarith)
    (by have := Real.pi_pos; push_cast; linarith)]
  ring

theorem fix_angle_neg_pi : fix_angle (-Real.pi) = -Real.pi := by
  have hpi := Real.pi_pos
  rw [fix_angle_eq_self _ (by linarith) (by linarith)]

theorem fix_angle_spec (x : ℝ) :
    fix_angle x = x - 2 * Real.pi * (⌊(x + Real.pi) / (2 * Real.pi)⌋ : ℤ) := by
  unfold fix_angle pymod
  ring

theorem cos_fix_angle (x : ℝ) : Real.cos (fix_angle x) = Real.cos x := by
  rw [fix_angle_spec]
  have := Real.cos_sub_int_mul_two_pi x (⌊(x + Real.pi) / (2 * Real.pi)⌋)
  rw [← this]
  ring_nf

theorem sin_fix_angle (x : ℝ) : Real.sin (fix_angle x) = Real.sin x := by
  rw [fix_angle_spec]
  have h : x - 2 * Real.pi * (⌊(x + Real.pi) / (2 * Real.pi)⌋ : ℤ) =
      x + (-(⌊(x + Real.pi) / (2 * Real.pi)⌋ : ℤ) : ℤ) * (2 * Real.pi) := by
    push_cast
    ring
  rw [h, Real.sin_add_int_mul_two_pi]

theorem pymod_two_pi_eq_pi_iff (α : ℝ) (h1 : -Real.pi ≤ α) (h2 : α < Real.pi) :
    pymod α (2 * Real.pi) = Real.pi ↔ α = -Real.pi := by
  have hpi := Real.pi_pos
  constructor
  · intro h
    rcases le_or_lt 0 α with h0 | h0
    · rw [pymod_eq _ _ two_pi_pos 0 (by push_cast; linarith) (by push_cast; linarith)] at h
      simp at h
      linarith
    · rw [pymod_eq _ _ two_pi_pos (-1) (by push_cast; linarith) (by push_cast; linarith)] at h
      push_cast at h
      linarith
  · intro h
    subst h
    rw [pymod_eq _ _ two_pi_pos (-1) (by push_cast; linarith) (by push_cast; linarith)]
    push_cast
    ring

/-! ### Values and bridge lemmas for `atan2` -/

theorem atan2_zero_neg (x : ℝ) (hx : x < 0) : atan2 0 x = Real.pi := by
  unfold atan2
  rw [if_neg (by linarith), if_pos hx, if_neg (by norm_num)]
  simp [Real.arctan_zero]

theorem atan2_zero_pos (x : ℝ) (hx : 0 < x) : atan2 0 x = 0 := by
  unfold atan2
  rw [if_pos hx]
  simp [Real.arctan_zero]

theorem atan2_pos_zero (y : ℝ) (hy : 0 < y) : atan2 y 0 = Real.pi / 2 := by
  unfold atan2
  rw [if_neg (by norm_num), if_neg (by norm_num), if_pos hy]

theorem atan2_neg_zero (y : ℝ) (hy : y < 0) : atan2 y 0 = -(Real.pi / 2) := by
  unfold atan2
  rw [if_neg (by norm_num), if_neg (by norm_num), if_neg (by linarith), if_pos hy]

theorem sqrt_one_add_div_sq (x y : ℝ) (hx : x ≠ 0) :
    Real.sqrt (1 + (y / x) ^ 2) = Real.sqrt (x ^ 2 + y ^ 2) / |x| := by
  have h1 : 1 + (y / x) ^ 2 = (x ^ 2 + y ^ 2) / x ^ 2 := by
    field_simp
  rw [h1, Real.sqrt_div (by positivity) (x ^ 2), Real.sqrt_sq_eq_abs]

theorem cos_atan2 (y x : ℝ) (h : ¬(x = 0 ∧ y = 0)) :
    Real.cos (atan2 y x) = x / Real.sqrt (x ^ 2 + y ^ 2) := by
  have hr : 0 < Real.sqrt (x ^ 2 + y ^ 2) := by
    apply Real.sqrt_pos.mpr
    rcases eq_or_ne x 0 with hx | hx
    · have hy : y ≠ 0 := fun hy => h ⟨hx, hy⟩
      positivity
    · positivity
  unfold atan2
  rcases lt_trichotomy x 0 with hx | hx | hx
  · rw [if_neg (by linarith), if_pos hx]
    have hxne : x ≠ 0 := ne_of_lt hx
    have habs : |x| = -x := abs_of_neg hx
    rcases lt_or_le y 0 with hy | hy
    · rw [if_pos hy, Real.cos_sub_pi, Real.cos_arctan, sqrt_one_add_div_sq x y hxne, habs]
      field_simp
    · rw [if_neg (not_lt.mpr hy), Real.cos_add_pi, Real.cos_arctan,
        sqrt_one_add_div_sq x y hxne, habs]
      field_simp
  · subst hx
    rcases lt_trichotomy y 0 with hy | hy | hy
    · rw [if_neg (by norm_num), if_neg (by norm_num), if_neg (by linarith), if_pos hy]
      simp [Real.cos_pi_div_two]
    · exact absurd ⟨rfl, hy⟩ h
    · rw [if_neg (by norm_num), if_neg (by norm_num), if_pos hy]
      simp [Real.cos_pi_div_two]
  · rw [if_pos hx]
    have hxne : x ≠ 0 := ne_of_gt hx
    have habs : |x| = x := abs_of_pos hx
    rw [Real.cos_arctan, sqrt_one_add_div_sq x y hxne, habs]
    field_simp

theorem sin_atan2 (y x : ℝ) (h : ¬(x = 0 ∧ y = 0)) :
    Real.sin (atan2 y x) = y / Real.sqrt (x ^ 2 + y ^ 2) := by
  have hr : 0 < Real.sqrt (x ^ 2 + y ^ 2) := by
    apply Real.sqrt_pos.mpr
    rcases eq_or_ne x 0 with hx | hx
    · have hy : y ≠ 0 := fun hy => h ⟨hx, hy⟩
      positivity
    · positivity
  have hS : Real.sqrt (x ^ 2 + y ^ 2) ≠ 0 := ne_of_gt hr
  unfold atan2
  rcases lt_trichotomy x 0 with hx | hx | hx
  · rw [if_neg (by linarith), if_pos hx]
    have hxne : x ≠ 0 := ne_of_lt hx
    have habs : |x| = -x := abs_of_neg hx
    rcases lt_or_le y 0 with hy | hy
    · rw [if_pos hy, Real.sin_sub_pi, Real.sin_arctan, sqrt_one_add_div_sq x y hxne, habs]
      field_simp
      ring
    · rw [if_neg (not_lt.mpr hy), Real.sin_add_pi, Real.sin_arctan,
        sqrt_one_add_div_sq x y hxne, habs]
      field_simp
      ring
  · subst hx
    rcases lt_trichotomy y 0 with hy | hy | hy
    · rw [if_neg (by norm_num), if_neg (by norm_num), if_neg (by linarith), if_pos hy]
      have hy2 : Real.sqrt (0 ^ 2 + y ^ 2) = -y := by
        rw [show (0:ℝ) ^ 2 + y ^ 2 = (-y) ^ 2 by ring, Real.sqrt_sq (by linarith)]
      rw [hy2, Real.sin_neg, Real.sin_pi_div_two, div_neg, div_self (ne_of_lt hy)]
    · exact absurd ⟨rfl, hy⟩ h
    · rw [if_neg (by norm_num), if_neg (by norm_num), if_pos hy]
      have hy2 : Real.sqrt (0 ^ 2 + y ^ 2) = y := by
        rw [show (0:ℝ) ^ 2 + y ^ 2 = y ^ 2 by ring, Real.sqrt_sq (by linarith)]
      rw [hy2, Real.sin_pi_div_two, div_self (ne_of_gt hy)]
  · rw [if_pos hx]
    have hxne : x ≠ 0 := ne_of_gt hx
    have habs : |x| = x := abs_of_pos hx
    rw [Real.sin_arctan, sqrt_one_add_div_sq x y hxne, habs]
    field_simp

theorem atan2_smul (t y x : ℝ) (ht : 0 < t) : atan2 (t * y) (t * x) = atan2 y x := by
  have hq : t * y / (t * x) = y / x := by
    rcases eq_or_ne x 0 with hx | hx
    · rw [hx, mul_zero, div_zero, div_zero]
    · rw [mul_div_mul_left y x (ne_of_gt ht)]
  rcases lt_trichotomy x 0 with hx | hx | hx
  · have h2 : t * x < 0 := mul_neg_of_pos_of_neg ht hx
    have h1 : ¬ (0 < t * x) := not_lt.mpr (le_of_lt h2)
    have h1' : ¬ (0 < x) := not_lt.mpr (le_of_lt hx)
    unfold atan2
    rw [if_neg h1, if_pos h2, if_neg h1', if_pos hx]
    rcases lt_or_le y 0 with hy | hy
    · rw [if_pos (mul_neg_of_pos_of_neg ht hy), if_pos hy, hq]
    · rw [if_neg (not_lt.mpr (mul_nonneg ht.le hy)), if_neg (not_lt.mpr hy), hq]
  · subst hx
    rw [mul_zero]
    rcases lt_trichotomy y 0 with hy | hy | hy
    · rw [atan2_neg_zero _ (mul_neg_of_pos_of_neg ht hy), atan2_neg_zero _ hy]
    · rw [hy, mul_zero]
    · rw [atan2_pos_zero _ (mul_pos ht hy), atan2_pos_zero _ hy]
  · have h2 : 0 < t * x := mul_pos ht hx
    unfold atan2
    rw [if_pos h2, if_pos hx, hq]

theorem atan2_neg_neg (y x : ℝ) (h : ¬(x = 0 ∧ y = 0)) :
    atan2 (-y) (-x) = atan2 y x + Real.pi ∨ atan2 (-y) (-x) = atan2 y x - Real.pi := by
  rcases lt_trichotomy x 0 with hx | hx | hx
  · have h1 : (0:ℝ) < -x := by linarith
    have h1' : ¬ (0 < x) := not_lt.mpr (le_of_lt hx)
    unfold atan2
    rw [if_pos h1, if_neg h1', if_pos hx, neg_div_neg_eq]
    rcases lt_or_le y 0 with hy | hy
    · left
      rw [if_pos hy]
      ring
    · right
      rw [if_neg (not_lt.mpr hy)]
      ring
  · subst hx
    rw [neg_zero]
    rcases lt_trichotomy y 0 with hy | hy | hy
    · left
      rw [atan2_pos_zero _ (by linarith : (0:ℝ) < -y), atan2_neg_zero _ hy]
      ring
    · exact absurd ⟨rfl, hy⟩ h
    · right
      rw [atan2_neg_zero _ (by linarith : -y < 0), atan2_pos_zero _ hy]
      ring
  · have h1 : ¬ ((0:ℝ) < -x) := by linarith
    have h2 : -x < 0 := by linarith
    unfold atan2
    rw [if_neg h1, if_pos h2, if_pos hx, neg_div_neg_eq]
    rcases lt_or_le (-y) 0 with hy | hy
    · right
      rw [if_pos hy]
    · left
      rw [if_neg (not_lt.mpr hy)]

/-! ### Angles between vectors -/

theorem Pt.sub_eq_zero_iff (A B : Pt) : A - B = (⟨0, 0⟩ : Pt) ↔ A = B := by
  constructor
  · intro h
    have hx := congrArg Pt.x h
    have hy := congrArg Pt.y h
    simp at hx hy
    ext
    · linarith
    · linarith
  · intro h
    subst h
    ext <;> simp

theorem Pt.ne_zero_coords (v : Pt) (h : v ≠ (⟨0, 0⟩ : Pt)) : ¬ (v.x = 0 ∧ v.y = 0) := by
  rintro ⟨hx, hy⟩
  exact h (by ext <;> simp [hx, hy])

theorem cos_angle_between (v1 v0 : Pt) (h1 : v1 ≠ (⟨0, 0⟩ : Pt))
    (h0 : v0 ≠ (⟨0, 0⟩ : Pt)) :
    Real.cos (Rounding.angle_between v1 v0) =
      (v1.x * v0.x + v1.y * v0.y) / (v1.norm * v0.norm) := by
  unfold Rounding.angle_between
  rw [cos_fix_angle, Real.cos_sub,
    cos_atan2 _ _ (Pt.ne_zero_coords v1 h1), sin_atan2 _ _ (Pt.ne_zero_coords v1 h1),
    cos_atan2 _ _ (Pt.ne_zero_coords v0 h0), sin_atan2 _ _ (Pt.ne_zero_coords v0 h0)]
  rw [Pt.norm_def, Pt.norm_def]
  have s1 : Real.sqrt (v1.x ^ 2 + v1.y ^ 2) ≠ 0 :=
    ne_of_gt (by rw [← Pt.norm_def]; exact Pt.norm_pos v1 h1)
  have s0 : Real.sqrt (v0.x ^ 2 + v0.y ^ 2) ≠ 0 :=
    ne_of_gt (by rw [← Pt.norm_def]; exact Pt.norm_pos v0 h0)
  field_simp

theorem sin_angle_between (v1 v0 : Pt) (h1 : v1 ≠ (⟨0, 0⟩ : Pt))
    (h0 : v0 ≠ (⟨0, 0⟩ : Pt)) :
    Real.sin (Rounding.angle_between v1 v0) =
      (v1.y * v0.x - v1.x * v0.y) / (v1.norm * v0.norm) := by
  unfold Rounding.angle_between
  rw [sin_fix_angle, Real.sin_sub,
    cos_atan2 _ _ (Pt.ne_zero_coords v1 h1), sin_atan2 _ _ (Pt.ne_zero_coords v1 h1),
    cos_atan2 _ _ (Pt.ne_zero_coords v0 h0), sin_atan2 _ _ (Pt.ne_zero_coords v0 h0)]
  rw [Pt.norm_def, Pt.norm_def]
  have s1 : Real.sqrt (v1.x ^ 2 + v1.y ^ 2) ≠ 0 :=
    ne_of_gt (by rw [← Pt.norm_def]; exact Pt.norm_pos v1 h1)
  have s0 : Real.sqrt (v0.x ^ 2 + v0.y ^ 2) ≠ 0 :=
    ne_of_gt (by rw [← Pt.norm_def]; exact Pt.norm_pos v0 h0)
  field_simp

theorem angle_between_antiparallel (v : Pt) (t : ℝ) (hv : v ≠ (⟨0, 0⟩ : Pt))
    (ht : 0 < t) : Rounding.angle_between v ((-t) * v) = -Real.pi := by
  unfold Rounding.angle_between
  have hxy : ((-t) * v).y = -(t * v.y) := by
    simp
  have hxx : ((-t) * v).x = -(t * v.x) := by
    simp
  rw [hxy, hxx]
  have hnz : ¬ (t * v.x = 0 ∧ t * v.y = 0) := by
    rintro ⟨hx, hy⟩
    apply Pt.ne_zero_coords v hv
    constructor
    · exact (mul_eq_zero.mp hx).resolve_left (ne_of_gt ht)
    · exact (mul_eq_zero.mp hy).resolve_left (ne_of_gt ht)
  rcases atan2_neg_neg (t * v.y) (t * v.x) hnz with h | h
  · rw [h, atan2_smul t v.y v.x ht]
    rw [show atan2 v.y v.x - (atan2 v.y v.x + Real.pi) = -Real.pi by ring, fix_angle_neg_pi]
  · rw [h, atan2_smul t v.y v.x ht]
    rw [show atan2 v.y v.x - (atan2 v.y v.x - Real.pi) = Real.pi by ring, fix_angle_pi]

/-! ### Branch-evaluation lemmas for `solve_3` -/

namespace Rounding

theorem solve_3_collinear (A B C : Pt) (radius : ℝ)
    (h : pymod (angle_between (A - B) (C - B)) (2 * Real.pi) = Real.pi) :
    solve_3 A B C radius = .ok ([], [A, C]) := by
  simp only [solve_3]
  rw [if_pos h]

theorem solve_3_rewind_inf (A B C : Pt) (radius : ℝ)
    (hcol : pymod (angle_between (A - B) (C - B)) (2 * Real.pi) ≠ Real.pi)
    (hinf : min_clearance (angle_between (A - B) (C - B)) (radius - 0.001) = none) :
    solve_3 A B C radius = .error .rewind := by
  simp only [solve_3]
  rw [if_neg hcol, hinf]

theorem solve_3_rewind (A B C : Pt) (radius c : ℝ)
    (hcol : pymod (angle_between (A - B) (C - B)) (2 * Real.pi) ≠ Real.pi)
    (hc : min_clearance (angle_between (A - B) (C - B)) (radius - 0.001) = some c)
    (hlen : (B - A).norm < c) :
    solve_3 A B C radius = .error .rewind := by
  simp only [solve_3]
  rw [if_neg hcol, hc]
  simp only [if_pos hlen]

theorem solve_3_forward (A B C : Pt) (radius c : ℝ)
    (hcol : pymod (angle_between (A - B) (C - B)) (2 * Real.pi) ≠ Real.pi)
    (hc : min_clearance (angle_between (A - B) (C - B)) (radius - 0.001) = some c)
    (hlen1 : ¬ (B - A).norm < c) (hlen2 : (C - B).norm < c) :
    solve_3 A B C radius = .error .forward := by
  simp only [solve_3]
  rw [if_neg hcol, hc]
  simp only [if_neg hlen1, if_pos hlen2]

theorem solve_3_ok_shape (A B C : Pt) (radius c : ℝ)
    (hcol : pymod (angle_between (A - B) (C - B)) (2 * Real.pi) ≠ Real.pi)
    (hc : min_clearance (angle_between (A - B) (C - B)) (radius - 0.001) = some c)
    (hlen1 : ¬ (B - A).norm < c) (hlen2 : ¬ (C - B).norm < c) :
    solve_3 A B C radius =
      .ok ([.line A (B - (B - A) / (B - A).norm * c),
            .arc (B - (B - A) / (B - A).norm * c)
              (B + (0.5 : ℝ) * (-((B - A) / (B - A).norm) * c + (C - B) / (C - B).norm * c) /
                Real.cos (angle_between (A - B) (C - B) / 2) ^ 2)
              (B + (C - B) / (C - B).norm * c)
              (if 0 < angle_between (A - B) (C - B) then true else false)],
           [B + (C - B) / (C - B).norm * c, C]) := by
  simp only [solve_3]
  rw [if_neg hcol, hc]
  simp only [if_neg hlen1, if_neg hlen2]

end Rounding

/-! ### Concrete right-angle corners -/

theorem angle_right_corner (a c : ℝ) (ha : 0 < a) (hc : 0 < c) :
    Rounding.angle_between ⟨-a, 0⟩ ⟨0, c⟩ = Real.pi / 2 := by
  have hpi := Real.pi_pos
  unfold Rounding.angle_between
  show fix_angle (atan2 (0 : ℝ) (-a) - atan2 c 0) = _
  rw [atan2_zero_neg (-a) (by linarith), atan2_pos_zero c hc,
    show Real.pi - Real.pi / 2 = Real.pi / 2 by ring]
  exact fix_angle_eq_self _ (by linarith) (by linarith)

theorem cos_sq_pi_div_four : Real.cos (Real.pi / 4) ^ 2 = 1 / 2 := by
  rw [Real.cos_pi_div_four]
  rw [div_pow, Real.sq_sqrt (by norm_num : (0:ℝ) ≤ 2)]
  norm_num

theorem min_clearance_right (r : ℝ) :
    Rounding.min_clearance (Real.pi / 2) r = some |r| := by
  unfold Rounding.min_clearance
  rw [show Real.pi / 2 / 2 = Real.pi / 4 by ring, Real.tan_pi_div_four]
  rw [if_neg (by norm_num)]
  simp

theorem pymod_right_ne (h : pymod (Real.pi / 2) (2 * Real.pi) = Real.pi) : False := by
  have hpi := Real.pi_pos
  rw [pymod_eq _ _ two_pi_pos 0 (by norm_num; linarith)
    (by push_cast; linarith)] at h
  simp at h
  linarith

theorem sub_rev_of_eq {A B : Pt} {a b : ℝ} (hA : A - B = ⟨a, b⟩) : B - A = ⟨-a, -b⟩ := by
  have hx := congrArg Pt.x hA
  have hy := congrArg Pt.y hA
  simp at hx hy
  ext <;> simp <;> linarith

theorem solve_3_right_rewind (A B C : Pt) (a c r : ℝ)
    (hA : A - B = ⟨-a, 0⟩) (hC : C - B = ⟨0, c⟩)
    (ha : 0 < a) (hc : 0 < c) (hr : 0 ≤ r - 0.001)
    (hclr : a < r - 0.001) :
    Rounding.solve_3 A B C r = .error .rewind := by
  have hα : Rounding.angle_between (A - B) (C - B) = Real.pi / 2 := by
    rw [hA, hC]
    exact angle_right_corner a c ha hc
  have hBA : (B - A).norm = a := by
    rw [sub_rev_of_eq hA]
    simpa [Pt.norm_mk_right] using abs_of_pos ha
  apply Rounding.solve_3_rewind A B C r (r - 0.001)
  · rw [hα]
    exact fun h => pymod_right_ne h
  · rw [hα, min_clearance_right, abs_of_nonneg hr]
  · rw [hBA]
    exact hclr

theorem solve_3_right_forward (A B C : Pt) (a c r : ℝ)
    (hA : A - B = ⟨-a, 0⟩) (hC : C - B = ⟨0, c⟩)
    (ha : 0 < a) (hc : 0 < c) (hr : 0 ≤ r - 0.001)
    (hclr1 : ¬ a < r - 0.001) (hclr2 : c < r - 0.001) :
    Rounding.solve_3 A B C r = .error .forward := by
  have hα : Rounding.angle_between (A - B) (C - B) = Real.pi / 2 := by
    rw [hA, hC]
    exact angle_right_corner a c ha hc
  have hBA : (B - A).norm = a := by
    rw [sub_rev_of_eq hA]
    simpa [Pt.norm_mk_right] using abs_of_pos ha
  have hCB : (C - B).norm = c := by
    rw [hC]
    simpa [Pt.norm_mk_up] using abs_of_pos hc
  apply Rounding.solve_3_forward A B C r (r - 0.001)
  · rw [hα]
    exact fun h => pymod_right_ne h
  · rw [hα, min_clearance_right, abs_of_nonneg hr]
  · rw [hBA]
    exact hclr1
  · rw [hCB]
    exact hclr2

theorem solve_3_right_ok (A B C : Pt) (a c r : ℝ)
    (hA : A - B = ⟨-a, 0⟩) (hC : C - B = ⟨0, c⟩)
    (ha : 0 < a) (hc : 0 < c) (hr : 0 ≤ r - 0.001)
    (hclr1 : ¬ a < r - 0.001) (hclr2 : ¬ c < r - 0.001) :
    Rounding.solve_3 A B C r =
      .ok ([.line A ⟨B.x - (r - 0.001), B.y⟩,
            .arc ⟨B.x - (r - 0.001), B.y⟩ ⟨B.x - (r - 0.001), B.y + (r - 0.001)⟩
              ⟨B.x, B.y + (r - 0.001)⟩ true],
           [⟨B.x, B.y + (r - 0.001)⟩, C]) := by
  have hpi := Real.pi_pos
  have hα : Rounding.angle_between (A - B) (C - B) = Real.pi / 2 := by
    rw [hA, hC]
    exact angle_right_corner a c ha hc
  have hBA : B - A = ⟨a, 0⟩ := by
    have := sub_rev_of_eq hA
    simpa using this
  have hBAn : (B - A).norm = a := by
    rw [hBA]
    simpa [Pt.norm_mk_right] using abs_of_pos ha
  have hCBn : (C - B).norm = c := by
    rw [hC]
    simpa [Pt.norm_mk_up] using abs_of_pos hc
  have h3 := Rounding.solve_3_ok_shape A B C r (r - 0.001)
    (by rw [hα]; exact fun h => pymod_right_ne h)
    (by rw [hα, min_clearance_right, abs_of_nonneg hr])
    (by rw [hBAn]; exact hclr1) (by rw [hCBn]; exact hclr2)
  rw [h3]
  have he1 : (B - A) / (B - A).norm = (⟨1, 0⟩ : Pt) := by
    rw [hBAn, hBA]
    ext <;> simp <;> field_simp
  have he2 : (C - B) / (C - B).norm = (⟨0, 1⟩ : Pt) := by
    rw [hCBn, hC]
    ext <;> simp <;> field_simp
  rw [he1, he2, hα]
  have hcos : Real.cos (Real.pi / 2 / 2) ^ 2 = 1 / 2 := by
    rw [show Real.pi / 2 / 2 = Real.pi / 4 by ring]
    exact cos_sq_pi_div_four
  rw [hcos]
  have hflag : (if (0 : ℝ) < Real.pi / 2 then true else false) = true :=
    if_pos (by linarith)
  rw [hflag]
  have hp1 : B - (⟨1, 0⟩ : Pt) * (r - 0.001) = (⟨B.x - (r - 0.001), B.y⟩ : Pt) := by
    ext <;> simp
  have hp2 : B + (⟨0, 1⟩ : Pt) * (r - 0.001) = (⟨B.x, B.y + (r - 0.001)⟩ : Pt) := by
    ext <;> simp
  have hpc : B + (0.5 : ℝ) * (-(⟨1, 0⟩ : Pt) * (r - 0.001) + (⟨0, 1⟩ : Pt) * (r - 0.001)) /
      ((1 : ℝ) / 2) = (⟨B.x - (r - 0.001), B.y + (r - 0.001)⟩ : Pt) := by
    ext <;> simp <;> ring
  rw [hp1, hp2, hpc]

/-! ### Claim C5 -/

theorem pymod_zero_ne_pi : pymod 0 (2 * Real.pi) ≠ Real.pi := by
  rw [pymod_eq 0 _ two_pi_pos 0 (by norm_num) (by push_cast; positivity)]
  simpa using Real.pi_ne_zero.symm

/-- C5 counterexample: the three waypoints `(0,0)`, `(2,0)`, `(1,0)` are
collinear (the middle point lies beyond the third), yet `solve_3` does not
return an empty element list with `[A, C]`: the vertex angle is `0`, the
clearance is infinite, and the call raises `ClearanceRewind`. -/
theorem c5_counterexample :
    Rounding.solve_3 ⟨0, 0⟩ ⟨2, 0⟩ ⟨1, 0⟩ 3 = .error .rewind ∧
    Rounding.solve_3 ⟨0, 0⟩ ⟨2, 0⟩ ⟨1, 0⟩ 3 ≠
      .ok ([], [(⟨0, 0⟩ : Pt), (⟨1, 0⟩ : Pt)]) := by
  have hpi := Real.pi_pos
  have e1 : (⟨0, 0⟩ : Pt) - ⟨2, 0⟩ = (⟨-2, 0⟩ : Pt) := by
    ext <;> norm_num
  have e0 : (⟨1, 0⟩ : Pt) - ⟨2, 0⟩ = (⟨-1, 0⟩ : Pt) := by
    ext <;> norm_num
  have hα : Rounding.angle_between ((⟨0, 0⟩ : Pt) - ⟨2, 0⟩) ((⟨1, 0⟩ : Pt) - ⟨2, 0⟩) = 0 := by
    rw [e1, e0]
    unfold Rounding.angle_between
    show fix_angle (atan2 (0 : ℝ) (-2) - atan2 (0 : ℝ) (-1)) = 0
    rw [atan2_zero_neg (-2) (by norm_num), atan2_zero_neg (-1) (by norm_num)]
    rw [sub_self]
    exact fix_angle_eq_self 0 (by linarith) hpi
  have hmain : Rounding.solve_3 ⟨0, 0⟩ ⟨2, 0⟩ ⟨1, 0⟩ 3 = .error .rewind := by
    apply Rounding.solve_3_rewind_inf
    · rw [hα]
      exact pymod_zero_ne_pi
    · rw [hα]
      unfold Rounding.min_clearance
      rw [show (0 : ℝ) / 2 = 0 by norm_num, Real.tan_zero, if_pos rfl]
  refine ⟨hmain, ?_⟩
  rw [hmain]
  simp

/-- C5 (amended): for three collinear waypoints with `B` strictly between `A`
and `C` (the outgoing direction `C - B` is a positive multiple of the reversed
incoming direction `-(A - B)`), `solve_3` detects the angle `pi` at the vertex
and short-circuits: it produces zero Arc elements, returning an empty element
list and passing through the remaining points `[A, C]`, dropping `B`.  (When
the three points are collinear with `B` not between `A` and `C`, the vertex
angle is `0` and `solve_3` instead raises `ClearanceRewind`.) -/
theorem c5_collinear_between (A B C : Pt) (radius t : ℝ) (hAB : A ≠ B)
    (ht : 0 < t) (hbetween : C - B = (-t) * (A - B)) :
    Rounding.solve_3 A B C radius = .ok ([], [A, C]) := by
  apply Rounding.solve_3_collinear
  have hv : A - B ≠ (⟨0, 0⟩ : Pt) := fun h => hAB ((Pt.sub_eq_zero_iff A B).mp h)
  rw [hbetween, angle_between_antiparallel (A - B) t hv ht]
  have hpi := Real.pi_pos
  exact (pymod_two_pi_eq_pi_iff (-Real.pi) (by linarith) (by linarith)).mpr rfl

/-- C5 witness: `solve_3((0,0), (1,0), (2,0), 3)` hits the collinear
short-circuit and returns no elements together with `[(0,0), (2,0)]`. -/
theorem c5_collinear_between_witness :
    Rounding.solve_3 ⟨0, 0⟩ ⟨1, 0⟩ ⟨2, 0⟩ 3 =
      .ok ([], [(⟨0, 0⟩ : Pt), (⟨2, 0⟩ : Pt)]) := by
  apply c5_collinear_between ⟨0, 0⟩ ⟨1, 0⟩ ⟨2, 0⟩ 3 1
  · intro h
    have := congrArg Pt.x h
    norm_num at this
  · norm_num
  · ext <;> norm_num

/-! ### Claim C3 -/

theorem angle_between_mem (v1 v0 : Pt) :
    -Real.pi ≤ Rounding.angle_between v1 v0 ∧ Rounding.angle_between v1 v0 < Real.pi :=
  fix_angle_mem _

/-- At a genuinely non-collinear corner the vertex angle lies in
`(-pi, 0) ∪ (0, pi)`, the collinearity test fails, and the clearance is the
finite value `(radius - 0.001) / tan(|angle| / 2) > 0`. -/
theorem noncollinear_facts (A B C : Pt) (radius : ℝ)
    (hAB : A ≠ B) (hBC : B ≠ C)
    (hnc : cross_prod (C - B) (A - B) ≠ 0) (hr : 0.001 ≤ radius) :
    pymod (Rounding.angle_between (A - B) (C - B)) (2 * Real.pi) ≠ Real.pi ∧
    Rounding.min_clearance (Rounding.angle_between (A - B) (C - B)) (radius - 0.001) =
      some ((radius - 0.001) /
        Real.tan (|Rounding.angle_between (A - B) (C - B)| / 2)) ∧
    0 < Real.tan (|Rounding.angle_between (A - B) (C - B)| / 2) ∧
    0 < Real.cos (Rounding.angle_between (A - B) (C - B) / 2) := by
  have hpi := Real.pi_pos
  set α := Rounding.angle_between (A - B) (C - B) with hαdef
  have hv1 : A - B ≠ (⟨0, 0⟩ : Pt) := fun h => hAB ((Pt.sub_eq_zero_iff A B).mp h)
  have hv0 : C - B ≠ (⟨0, 0⟩ : Pt) := fun h => hBC (((Pt.sub_eq_zero_iff C B).mp h).symm)
  have hn1 : 0 < (A - B).norm := Pt.norm_pos _ hv1
  have hn0 : 0 < (C - B).norm := Pt.norm_pos _ hv0
  have hsin : Real.sin α ≠ 0 := by
    rw [hαdef, sin_angle_between _ _ hv1 hv0]
    have hnum : (A - B).y * (C - B).x - (A - B).x * (C - B).y ≠ 0 := by
      intro h
      apply hnc
      unfold cross_prod
      linarith
    exact div_ne_zero hnum (by positivity)
  have hmem := angle_between_mem (A - B) (C - B)
  rw [← hαdef] at hmem
  have hne_neg_pi : α ≠ -Real.pi := by
    intro h
    apply hsin
    rw [h, Real.sin_neg, Real.sin_pi, neg_zero]
  have hne_zero : α ≠ 0 := by
    intro h
    apply hsin
    rw [h, Real.sin_zero]
  have hlow : -Real.pi < α := lt_of_le_of_ne hmem.1 (Ne.symm hne_neg_pi)
  have hcosβ : 0 < Real.cos (α / 2) :=
    Real.cos_pos_of_mem_Ioo ⟨by linarith, by linarith [hmem.2]⟩
  have htan_abs : 0 < Real.tan (|α| / 2) := by
    apply Real.tan_pos_of_pos_of_lt_pi_div_two
    · have : 0 < |α| := abs_pos.mpr hne_zero
      linarith
    · have : |α| < Real.pi := abs_lt.mpr ⟨hlow, hmem.2⟩
      linarith
  have htan_eq : |Real.tan (α / 2)| = Real.tan (|α| / 2) := by
    rcases lt_trichotomy α 0 with h0 | h0 | h0
    · have h1 : Real.tan (α / 2) < 0 :=
        Real.tan_neg_of_neg_of_pi_div_two_lt (by linarith) (by linarith)
      rw [abs_of_neg h1, abs_of_neg h0, ← Real.tan_neg, neg_div]
    · exact absurd h0 hne_zero
    · have h1 : 0 < Real.tan (α / 2) :=
        Real.tan_pos_of_pos_of_lt_pi_div_two (by linarith) (by linarith [hmem.2])
      rw [abs_of_pos h1, abs_of_pos h0]
  have htan_ne : Real.tan (α / 2) ≠ 0 := by
    intro h
    rw [h, abs_zero] at htan_eq
    linarith
  refine ⟨?_, ?_, htan_abs, hcosβ⟩
  · intro h
    exact hne_neg_pi ((pymod_two_pi_eq_pi_iff α hmem.1 hmem.2).mp h)
  · unfold Rounding.min_clearance
    rw [if_neg htan_ne]
    congr 1
    rw [abs_div, htan_eq, abs_of_nonneg (by linarith : (0:ℝ) ≤ radius - 0.001)]

/-- C3 (amended): at every non-collinear corner `(A, B, C)` with distinct
points and `radius ≥ 0.001`, `solve_3` computes the clearance
`(radius - 0.001) / tan(|angle| / 2)` (not `radius / tan(|angle| / 2)`: the
source subtracts a `0.001` numerical slack from the radius before computing
the clearance), raises `ClearanceRewind` exactly when `|B - A| < clearance`,
raises `ClearanceForward` exactly when `|B - A| >= clearance` and
`|C - B| < clearance`, and otherwise returns a straight segment followed by an
arc, with `[arc end, C]` as the remaining points. -/
theorem c3_clearance_behavior (A B C : Pt) (radius : ℝ)
    (hAB : A ≠ B) (hBC : B ≠ C)
    (hnc : cross_prod (C - B) (A - B) ≠ 0) (hr : 0.001 ≤ radius) :
    (Rounding.solve_3 A B C radius = .error .rewind ↔
      (B - A).norm <
        (radius - 0.001) / Real.tan (|Rounding.angle_between (A - B) (C - B)| / 2)) ∧
    (Rounding.solve_3 A B C radius = .error .forward ↔
      ((radius - 0.001) / Real.tan (|Rounding.angle_between (A - B) (C - B)| / 2) ≤
          (B - A).norm ∧
        (C - B).norm <
          (radius - 0.001) / Real.tan (|Rounding.angle_between (A - B) (C - B)| / 2))) ∧
    (((radius - 0.001) / Real.tan (|Rounding.angle_between (A - B) (C - B)| / 2) ≤
          (B - A).norm ∧
      (radius - 0.001) / Real.tan (|Rounding.angle_between (A - B) (C - B)| / 2) ≤
          (C - B).norm) →
      ∃ P O Q b, Rounding.solve_3 A B C radius =
        .ok ([.line A P, .arc P O Q b], [Q, C])) := by
  obtain ⟨hcol, hclr, htan, hcos⟩ := noncollinear_facts A B C radius hAB hBC hnc hr
  set cl := (radius - 0.001) /
    Real.tan (|Rounding.angle_between (A - B) (C - B)| / 2) with hcl
  by_cases h1 : (B - A).norm < cl
  · have hres := Rounding.solve_3_rewind A B C radius cl hcol hclr h1
    refine ⟨⟨fun _ => h1, fun _ => hres⟩, ⟨?_, ?_⟩, ?_⟩
    · intro h
      rw [hres] at h
      simp at h
    · rintro ⟨hge, _⟩
      exact absurd h1 (not_lt.mpr hge)
    · rintro ⟨hge, _⟩
      exact absurd h1 (not_lt.mpr hge)
  · by_cases h2 : (C - B).norm < cl
    · have hres := Rounding.solve_3_forward A B C radius cl hcol hclr h1 h2
      refine ⟨⟨?_, fun h => absurd h h1⟩, ⟨fun _ => ⟨not_lt.mp h1, h2⟩, fun _ => hres⟩, ?_⟩
      · intro h
        rw [hres] at h
        simp at h
      · rintro ⟨_, hge2⟩
        exact absurd h2 (not_lt.mpr hge2)
    · have hres := Rounding.solve_3_ok_shape A B C radius cl hcol hclr h1 h2
      refine ⟨⟨?_, fun h => absurd h h1⟩, ⟨?_, fun ⟨_, h⟩ => absurd h h2⟩, ?_⟩
      · intro h
        rw [hres] at h
        simp at h
      · intro h
        rw [hres] at h
        simp at h
      · intro _
        exact ⟨_, _, _, _, hres⟩

/-- C3 counterexample: with `A = (-0.9995, 0)`, `B = (0, 0)`, `C = (0, 5)` and
`radius = 1`, the incoming segment `|B - A| = 0.9995` is strictly below the
claimed clearance `radius / tan(|angle| / 2) = 1`, yet `solve_3` does not
raise `ClearanceRewind`: it returns normally, because the code computes the
clearance from `radius - 0.001`, i.e. `0.999 <= 0.9995`. -/
theorem c3_counterexample :
    Pt.norm ((⟨0, 0⟩ : Pt) - ⟨-0.9995, 0⟩) <
      1 / Real.tan (|Rounding.angle_between ((⟨-0.9995, 0⟩ : Pt) - ⟨0, 0⟩)
        ((⟨0, 5⟩ : Pt) - ⟨0, 0⟩)| / 2) ∧
    ∃ out, Rounding.solve_3 ⟨-0.9995, 0⟩ ⟨0, 0⟩ ⟨0, 5⟩ 1 = .ok out := by
  have hpi := Real.pi_pos
  have hA : (⟨-0.9995, 0⟩ : Pt) - ⟨0, 0⟩ = (⟨-(0.9995 : ℝ), 0⟩ : Pt) := by
    ext <;> norm_num
  have hC : (⟨0, 5⟩ : Pt) - ⟨0, 0⟩ = (⟨(0 : ℝ), 5⟩ : Pt) := by
    ext <;> norm_num
  have hα : Rounding.angle_between ((⟨-0.9995, 0⟩ : Pt) - ⟨0, 0⟩)
      ((⟨0, 5⟩ : Pt) - ⟨0, 0⟩) = Real.pi / 2 := by
    rw [hA, hC]
    exact angle_right_corner 0.9995 5 (by norm_num) (by norm_num)
  constructor
  · rw [hα, abs_of_pos (by positivity), show Real.pi / 2 / 2 = Real.pi / 4 by ring,
      Real.tan_pi_div_four]
    have hBA : (⟨0, 0⟩ : Pt) - ⟨-0.9995, 0⟩ = (⟨(0.9995 : ℝ), 0⟩ : Pt) := by
      ext <;> norm_num
    rw [hBA, Pt.norm_mk_right]
    rw [abs_of_pos (by norm_num)]
    norm_num
  · exact ⟨_, solve_3_right_ok ⟨-0.9995, 0⟩ ⟨0, 0⟩ ⟨0, 5⟩ 0.9995 5 1 hA hC
      (by norm_num) (by norm_num) (by norm_num) (by norm_num) (by norm_num)⟩

/-- C3 witness: at the right-angle corner `(-10,0), (0,0), (0,10)` with radius
`3`, both segments exceed the clearance and `solve_3` returns a line followed
by an arc. -/
theorem c3_clearance_behavior_witness :
    ∃ P O Q b, Rounding.solve_3 ⟨-10, 0⟩ ⟨0, 0⟩ ⟨0, 10⟩ 3 =
      .ok ([.line ⟨-10, 0⟩ P, .arc P O Q b], [Q, (⟨0, 10⟩ : Pt)]) := by
  have hpi := Real.pi_pos
  have hA : (⟨-10, 0⟩ : Pt) - ⟨0, 0⟩ = (⟨-(10 : ℝ), 0⟩ : Pt) := by
    ext <;> norm_num
  have hC : (⟨0, 10⟩ : Pt) - ⟨0, 0⟩ = (⟨(0 : ℝ), 10⟩ : Pt) := by
    ext <;> norm_num
  have hα : Rounding.angle_between ((⟨-10, 0⟩ : Pt) - ⟨0, 0⟩)
      ((⟨0, 10⟩ : Pt) - ⟨0, 0⟩) = Real.pi / 2 := by
    rw [hA, hC]
    exact angle_right_corner 10 10 (by norm_num) (by norm_num)
  have hcl : (3 - 0.001 : ℝ) /
      Real.tan (|Rounding.angle_between ((⟨-10, 0⟩ : Pt) - ⟨0, 0⟩)
        ((⟨0, 10⟩ : Pt) - ⟨0, 0⟩)| / 2) = 2.999 := by
    rw [hα, abs_of_pos (by positivity), show Real.pi / 2 / 2 = Real.pi / 4 by ring,
      Real.tan_pi_div_four]
    norm_num
  have hBA : (⟨0, 0⟩ : Pt) - ⟨-10, 0⟩ = (⟨(10 : ℝ), 0⟩ : Pt) := by
    ext <;> norm_num
  apply (c3_clearance_behavior ⟨-10, 0⟩ ⟨0, 0⟩ ⟨0, 10⟩ 3 ?_ ?_ ?_ (by norm_num)).2.2
  · constructor
    · rw [hcl, hBA, Pt.norm_mk_right, abs_of_pos (by norm_num)]
      norm_num
    · rw [hcl, hC, Pt.norm_mk_up, abs_of_pos (by norm_num)]
      norm_num
  · intro h
    have := congrArg Pt.x h
    norm_num at this
  · intro h
    have := congrArg Pt.y h
    norm_num at this
  · rw [hA, hC]
    unfold cross_prod
    norm_num

/-! ### Claim C4 -/

theorem core_ident_P1 (ux uy vx vy c r w : ℝ) (hw : w ≠ 0)
    (hU : ux ^ 2 + uy ^ 2 = 1) (hV : vx ^ 2 + vy ^ 2 = 1)
    (hD : ux * vx + uy * vy = -(2 * w - 1))
    (hc2 : c ^ 2 * (1 - w) = r ^ 2 * w) :
    (-(ux * c) - 0.5 * (-(ux * c) + vx * c) / w) ^ 2 +
      (-(uy * c) - 0.5 * (-(uy * c) + vy * c) / w) ^ 2 = r ^ 2 := by
  field_simp
  linear_combination (c ^ 2 * (0.5 - w) ^ 2) * hU + (0.25 * c ^ 2) * hV -
    (c ^ 2 * w * (0.5 - w)) * hD + (c ^ 2 * (3 / 2 * w - w ^ 2 - 1 / 2)) * hD + w * hc2

theorem Pt.norm_sub_rev (p q : Pt) : (p - q).norm = (q - p).norm := by
  unfold Pt.norm
  congr 1
  simp
  ring

theorem core_ident_P2 (ux uy vx vy c r w : ℝ) (hw : w ≠ 0)
    (hU : ux ^ 2 + uy ^ 2 = 1) (hV : vx ^ 2 + vy ^ 2 = 1)
    (hD : ux * vx + uy * vy = -(2 * w - 1))
    (hc2 : c ^ 2 * (1 - w) = r ^ 2 * w) :
    (vx * c - 0.5 * (-(ux * c) + vx * c) / w) ^ 2 +
      (vy * c - 0.5 * (-(uy * c) + vy * c) / w) ^ 2 = r ^ 2 := by
  field_simp
  linear_combination (0.25 * c ^ 2) * hU + (c ^ 2 * (0.5 - w) ^ 2) * hV -
    (c ^ 2 * w * (0.5 - w)) * hD + (c ^ 2 * (3 / 2 * w - w ^ 2 - 1 / 2)) * hD + w * hc2

theorem arc_dist_P1 (B e1 e2 : Pt) (c r w : ℝ) (hw : w ≠ 0)
    (hU : e1.x ^ 2 + e1.y ^ 2 = 1) (hV : e2.x ^ 2 + e2.y ^ 2 = 1)
    (hD : e1.x * e2.x + e1.y * e2.y = -(2 * w - 1))
    (hc2 : c ^ 2 * (1 - w) = r ^ 2 * w) (hr : 0 ≤ r) :
    ((B - e1 * c) - (B + (0.5 : ℝ) * (-e1 * c + e2 * c) / w)).norm = r := by
  rw [Pt.norm_def, ← Real.sqrt_sq hr]
  congr 1
  simp only [Pt.sub_x, Pt.sub_y, Pt.add_x, Pt.add_y, Pt.smul_x, Pt.smul_y,
    Pt.muls_x, Pt.muls_y, Pt.neg_x, Pt.neg_y, Pt.div_x, Pt.div_y]
  linear_combination core_ident_P1 e1.x e1.y e2.x e2.y c r w hw hU hV hD hc2

theorem arc_dist_P2 (B e1 e2 : Pt) (c r w : ℝ) (hw : w ≠ 0)
    (hU : e1.x ^ 2 + e1.y ^ 2 = 1) (hV : e2.x ^ 2 + e2.y ^ 2 = 1)
    (hD : e1.x * e2.x + e1.y * e2.y = -(2 * w - 1))
    (hc2 : c ^ 2 * (1 - w) = r ^ 2 * w) (hr : 0 ≤ r) :
    ((B + e2 * c) - (B + (0.5 : ℝ) * (-e1 * c + e2 * c) / w)).norm = r := by
  rw [Pt.norm_def, ← Real.sqrt_sq hr]
  congr 1
  simp only [Pt.sub_x, Pt.sub_y, Pt.add_x, Pt.add_y, Pt.smul_x, Pt.smul_y,
    Pt.muls_x, Pt.muls_y, Pt.neg_x, Pt.neg_y, Pt.div_x, Pt.div_y]
  linear_combination core_ident_P2 e1.x e1.y e2.x e2.y c r w hw hU hV hD hc2

/-- Inversion of a successful `solve_3`: either the collinear short-circuit
fired, or the clearance was finite, both segments were long enough, and the
result is the explicit line-plus-arc pair. -/
theorem Rounding.solve_3_ok_inv (A B C : Pt) (radius : ℝ) (elems : List Rounding.Element)
    (rest : List Pt)
    (hok : Rounding.solve_3 A B C radius = .ok (elems, rest)) :
    (elems = [] ∧ rest = [A, C]) ∨
    (∃ c, Rounding.min_clearance (Rounding.angle_between (A - B) (C - B)) (radius - 0.001) =
        some c ∧
      ¬ (B - A).norm < c ∧ ¬ (C - B).norm < c ∧
      elems = [.line A (B - (B - A) / (B - A).norm * c),
               .arc (B - (B - A) / (B - A).norm * c)
                 (B + (0.5 : ℝ) * (-((B - A) / (B - A).norm) * c + (C - B) / (C - B).norm * c) /
                   Real.cos (Rounding.angle_between (A - B) (C - B) / 2) ^ 2)
                 (B + (C - B) / (C - B).norm * c)
                 (if 0 < Rounding.angle_between (A - B) (C - B) then true else false)] ∧
      rest = [B + (C - B) / (C - B).norm * c, C]) := by
  simp only [Rounding.solve_3] at hok
  split at hok
  · simp only [Except.ok.injEq, Prod.mk.injEq] at hok
    exact Or.inl ⟨hok.1.symm, hok.2.symm⟩
  · split at hok
    · exact absurd hok (by simp)
    · rename_i c hc
      split at hok
      · exact absurd hok (by simp)
      · split at hok
        · exact absurd hok (by simp)
        · rename_i hl1 hl2
          simp only [Except.ok.injEq, Prod.mk.injEq] at hok
          exact Or.inr ⟨c, hc, hl1, hl2, hok.1.symm, hok.2.symm⟩

/-- C4 (amended): every Arc element produced by `solve_3(A, B, C, radius)`
(distinct points, `radius >= 0.001`) has distance from its center to each of
its two endpoints exactly `radius - 0.001` — the source computes the tangent
arc for the slack-adjusted radius — hence within `1e-3`, but not within
`1e-6`, of the requested radius. -/
theorem c4_arc_radius (A B C : Pt) (radius : ℝ) (elems : List Rounding.Element)
    (rest : List Pt) (P O Q : Pt) (b : Bool)
    (hAB : A ≠ B) (hBC : B ≠ C) (hr : 0.001 ≤ radius)
    (hok : Rounding.solve_3 A B C radius = .ok (elems, rest))
    (hmem : Rounding.Element.arc P O Q b ∈ elems) :
    (P - O).norm = radius - 0.001 ∧ (Q - O).norm = radius - 0.001 := by
  rcases Rounding.solve_3_ok_inv A B C radius elems rest hok with
    ⟨he, _⟩ | ⟨c, hc, hl1, hl2, he, hrest⟩
  · rw [he] at hmem
    simp at hmem
  · rw [he] at hmem
    simp only [List.mem_cons, List.mem_singleton, List.not_mem_nil, or_false] at hmem
    rcases hmem with hmem | hmem
    · exact absurd hmem (by simp)
    rw [Rounding.Element.arc.injEq] at hmem
    obtain ⟨hP, hO, hQ, hb⟩ := hmem
    subst hP hO hQ
    set α := Rounding.angle_between (A - B) (C - B) with hαdef
    have hv1 : B - A ≠ (⟨0, 0⟩ : Pt) := fun h => hAB ((Pt.sub_eq_zero_iff B A).mp h).symm
    have hv0 : C - B ≠ (⟨0, 0⟩ : Pt) := fun h => hBC (((Pt.sub_eq_zero_iff C B).mp h).symm)
    have hn1 : 0 < (B - A).norm := Pt.norm_pos _ hv1
    have hn2 : 0 < (C - B).norm := Pt.norm_pos _ hv0
    unfold Rounding.min_clearance at hc
    split at hc
    · exact absurd hc (by simp)
    rename_i htan
    simp only [Option.some.injEq] at hc
    have hcb : Real.cos (α / 2) ≠ 0 := by
      intro h
      apply htan
      rw [Real.tan_eq_sin_div_cos, h, div_zero]
    have hsb : Real.sin (α / 2) ≠ 0 := by
      intro h
      apply htan
      rw [Real.tan_eq_sin_div_cos, h, zero_div]
    set w := Real.cos (α / 2) ^ 2 with hwdef
    have hw : w ≠ 0 := pow_ne_zero 2 hcb
    have hr' : (0 : ℝ) ≤ radius - 0.001 := by linarith
    have hsinsq : Real.sin (α / 2) ^ 2 = 1 - w := by
      have h := Real.sin_sq_add_cos_sq (α / 2)
      rw [hwdef]
      linarith
    have htansq : Real.tan (α / 2) ^ 2 = (1 - w) / w := by
      rw [Real.tan_eq_sin_div_cos, div_pow, hsinsq, hwdef]
    have hc2 : c ^ 2 * (1 - w) = (radius - 0.001) ^ 2 * w := by
      have h1 : c ^ 2 * Real.tan (α / 2) ^ 2 = (radius - 0.001) ^ 2 := by
        rw [← hc, sq_abs, div_pow]
        field_simp
      rw [htansq] at h1
      field_simp at h1
      linarith
    have hU : ((B - A) / (B - A).norm).x ^ 2 + ((B - A) / (B - A).norm).y ^ 2 = 1 := by
      simp only [Pt.div_x, Pt.div_y, div_pow]
      rw [div_add_div_same, ← Pt.norm_sq, div_self (pow_ne_zero 2 (ne_of_gt hn1))]
    have hV : ((C - B) / (C - B).norm).x ^ 2 + ((C - B) / (C - B).norm).y ^ 2 = 1 := by
      simp only [Pt.div_x, Pt.div_y, div_pow]
      rw [div_add_div_same, ← Pt.norm_sq, div_self (pow_ne_zero 2 (ne_of_gt hn2))]
    have hcos2 : Real.cos α = 2 * w - 1 := by
      have h := Real.cos_two_mul (α / 2)
      rw [show 2 * (α / 2) = α by ring] at h
      rw [h, hwdef]
    have hcosab := cos_angle_between (A - B) (C - B)
      (fun h => hAB ((Pt.sub_eq_zero_iff A B).mp h)) (fun h => hBC (((Pt.sub_eq_zero_iff C B).mp h).symm))
    rw [Pt.norm_sub_rev A B] at hcosab
    have hD : ((B - A) / (B - A).norm).x * ((C - B) / (C - B).norm).x +
        ((B - A) / (B - A).norm).y * ((C - B) / (C - B).norm).y = -(2 * w - 1) := by
      have hfrac : ((B - A) / (B - A).norm).x * ((C - B) / (C - B).norm).x +
          ((B - A) / (B - A).norm).y * ((C - B) / (C - B).norm).y =
          ((B - A).x * (C - B).x + (B - A).y * (C - B).y) /
            ((B - A).norm * (C - B).norm) := by
        simp only [Pt.div_x, Pt.div_y]
        ring
      have hneg : (B - A).x * (C - B).x + (B - A).y * (C - B).y =
          -((A - B).x * (C - B).x + (A - B).y * (C - B).y) := by
        simp only [Pt.sub_x, Pt.sub_y]
        ring
      rw [hfrac, hneg, neg_div, ← hcosab, ← hαdef, hcos2]
    exact ⟨arc_dist_P1 B ((B - A) / (B - A).norm) ((C - B) / (C - B).norm) c
        (radius - 0.001) w hw hU hV hD hc2 hr',
      arc_dist_P2 B ((B - A) / (B - A).norm) ((C - B) / (C - B).norm) c
        (radius - 0.001) w hw hU hV hD hc2 hr'⟩

/-! ### Step equations for the path-compiler loop -/

namespace Rounding

theorem crpLoop_exit (radius : ℝ) (fuel : ℕ) (rp orp : List Element) (a b : Pt)
    (opl : List Pt) (cr : Bool) :
    crpLoop radius fuel rp orp [a, b] opl cr = .ok (rp ++ [.line a b]) := by
  simp only [crpLoop]

theorem crpLoop_step_ok (radius : ℝ) (fuel : ℕ) (rp orp : List Element)
    (A B C : Pt) (rest3 opl : List Pt) (cr : Bool) (sol : List Element) (rest : List Pt)
    (h : solve_3 A B C radius = .ok (sol, rest)) :
    crpLoop radius (fuel + 1) rp orp (A :: B :: C :: rest3) opl cr =
      crpLoop radius fuel (rp ++ sol) rp (rest ++ rest3) (A :: B :: C :: rest3) true := by
  simp only [crpLoop]
  rw [h]

end Rounding

/-- C4 witness for the amended theorem: the arc produced by
`solve_3((0,0), (10,0), (10,10), 3)` has center `(7.001, 2.999)` at distance
exactly `2.999 = 3 - 0.001` from both endpoints. -/
theorem c4_arc_radius_witness :
    ((⟨7.001, 0⟩ : Pt) - ⟨7.001, 2.999⟩).norm = 3 - 0.001 ∧
    ((⟨10, 2.999⟩ : Pt) - ⟨7.001, 2.999⟩).norm = 3 - 0.001 := by
  have h3 := solve_3_right_ok ⟨0, 0⟩ ⟨10, 0⟩ ⟨10, 10⟩ 10 10 3
    (by ext <;> norm_num) (by ext <;> norm_num)
    (by norm_num) (by norm_num) (by norm_num) (by norm_num) (by norm_num)
  norm_num at h3
  exact c4_arc_radius ⟨0, 0⟩ ⟨10, 0⟩ ⟨10, 10⟩ 3 _ _ ⟨7.001, 0⟩ ⟨7.001, 2.999⟩
    ⟨10, 2.999⟩ true
    (by intro h; have := congrArg Pt.x h; norm_num at this)
    (by intro h; have := congrArg Pt.y h; norm_num at this)
    (by norm_num) h3 (by norm_num)

/-- C4 counterexample: `compute_rounded_path([(0,0), (10,0), (10,10)], 3)`
produces an Arc whose center-to-endpoint distance is `2.999`, which differs
from the requested radius `3` by `0.001 > 1e-6`. -/
theorem c4_counterexample :
    Rounding.compute_rounded_path [⟨0, 0⟩, ⟨10, 0⟩, ⟨10, 10⟩] 3 =
      .ok [.line ⟨0, 0⟩ ⟨7.001, 0⟩,
           .arc ⟨7.001, 0⟩ ⟨7.001, 2.999⟩ ⟨10, 2.999⟩ true,
           .line ⟨10, 2.999⟩ ⟨10, 10⟩] ∧
    1e-6 < |((⟨7.001, 0⟩ : Pt) - ⟨7.001, 2.999⟩).norm - 3| := by
  have h3 := solve_3_right_ok ⟨0, 0⟩ ⟨10, 0⟩ ⟨10, 10⟩ 10 10 3
    (by ext <;> norm_num) (by ext <;> norm_num)
    (by norm_num) (by norm_num) (by norm_num) (by norm_num) (by norm_num)
  norm_num at h3
  constructor
  · simp only [Rounding.compute_rounded_path]
    rw [if_neg (by norm_num)]
    rw [show ([⟨0, 0⟩, ⟨10, 0⟩, ⟨10, 10⟩] : List Pt).length = 2 + 1 by simp]
    rw [Rounding.crpLoop_step_ok 3 2 [] [] ⟨0, 0⟩ ⟨10, 0⟩ ⟨10, 10⟩ [] _ false _ _ h3]
    simp only [List.nil_append, List.append_nil]
    rw [Rounding.crpLoop_exit]
    simp only [List.cons_append, List.nil_append]
    norm_num
  · have hd : (⟨7.001, 0⟩ : Pt) - ⟨7.001, 2.999⟩ = (⟨(0 : ℝ), -2.999⟩ : Pt) := by
      ext <;> norm_num
    rw [hd, Pt.norm_mk_up]
    rw [show |(-2.999 : ℝ)| = 2.999 by rw [abs_of_neg (by norm_num)]; norm_num]
    rw [show |(2.999 : ℝ) - 3| = 0.001 by rw [abs_of_neg (by norm_num)]; norm_num]
    norm_num

/-! ### Structural shape of solver outputs (for the path-compiler invariant) -/

namespace Rounding

/-- Shape common to all corner-solver results: the leftover points are
`[x, L]` with `L` the last input point; when no elements are produced the
leftover head is the first input point `A`; otherwise the first element starts
at `A`. -/
def SolveShape (A L : Pt) (sol : List Element) (rest : List Pt) : Prop :=
  (∃ x, rest = [x, L]) ∧
  (sol = [] → rest = [A, L]) ∧
  (∀ e es, sol = e :: es → e.start = A)

theorem solve_3_shape (A B C : Pt) (radius : ℝ) (sol : List Element) (rest : List Pt)
    (h : solve_3 A B C radius = .ok (sol, rest)) : SolveShape A C sol rest := by
  rcases solve_3_ok_inv A B C radius sol rest h with ⟨h1, h2⟩ | ⟨c, _, _, _, h1, h2⟩
  · subst h1
    subst h2
    exact ⟨⟨A, rfl⟩, fun _ => rfl, fun e es h => by simp at h⟩
  · subst h1
    subst h2
    refine ⟨⟨_, rfl⟩, by simp, ?_⟩
    intro e es h
    rw [List.cons.injEq] at h
    rw [← h.1]
    rfl

theorem solve_Z_shape (A B C D : Pt) (radius : ℝ) (sol : List Element) (rest : List Pt)
    (h : solve_Z A B C D radius = .ok (sol, rest)) : SolveShape A D sol rest := by
  unfold solve_Z at h
  dsimp only at h
  cases hz : solve_Z_angle (angle_between (-(C - B)) (B - A))
      (angle_between (-(C - B)) (D - C)) (C - B).norm radius with
  | error e =>
    rw [hz] at h
    simp [Bind.bind, Except.bind] at h
  | ok γ =>
    rw [hz] at h
    simp only [Bind.bind, Except.bind, pure, Except.pure, Except.ok.injEq,
      Prod.mk.injEq] at h
    obtain ⟨h1, h2⟩ := h
    subst h1
    subst h2
    refine ⟨⟨_, rfl⟩, by simp, ?_⟩
    intro e es h
    rw [List.cons.injEq] at h
    rw [← h.1]
    rfl

theorem solve_U_shape (A B C D : Pt) (radius : ℝ) (sol : List Element) (rest : List Pt)
    (h : solve_U A B C D radius = .ok (sol, rest)) : SolveShape A D sol rest := by
  unfold solve_U at h
  dsimp only at h
  cases hX : intersect B (bisect (A - B) (C - B)) C (bisect (B - C) (D - C)) with
  | error e =>
    rw [hX] at h
    simp [Bind.bind, Except.bind] at h
  | ok X =>
    rw [hX] at h
    simp only [Bind.bind, Except.bind] at h
    split at h
    · -- fallback: two solve_3 calls with radius h
      cases h1 : solve_3 A B C ((project X B C - X).norm) with
      | error e =>
        rw [h1] at h
        simp at h
      | ok s1 =>
        rw [h1] at h
        simp only at h
        split at h
        · simp at h
        · rename_i r0 rtail hrest1
          cases h2 : solve_3 r0 C D ((project X B C - X).norm) with
          | error e =>
            rw [h2] at h
            simp at h
          | ok s2 =>
            rw [h2] at h
            simp only [pure, Except.pure, Except.ok.injEq, Prod.mk.injEq] at h
            obtain ⟨hsol, hrest⟩ := h
            subst hsol
            subst hrest
            have hs1 := solve_3_shape A B C _ s1.1 s1.2 (by rw [h1])
            have hs2 := solve_3_shape r0 C D _ s2.1 s2.2 (by rw [h2])
            refine ⟨hs2.1.imp (fun x hx => hx), ?_, ?_⟩
            · intro hnil
              rw [List.append_eq_nil] at hnil
              have hr1 : s1.2 = [A, C] := hs1.2.1 hnil.1
              have hr0 : r0 = A := by
                rw [hrest1] at hr1
                exact (List.cons.injEq _ _ _ _).mp hr1 |>.1
              rw [← hr0]
              exact hs2.2.1 hnil.2
            · intro e es he
              cases hc1 : s1.1 with
              | nil =>
                rw [hc1, List.nil_append] at he
                have hr1 : s1.2 = [A, C] := hs1.2.1 hc1
                have hr0 : r0 = A := by
                  rw [hrest1] at hr1
                  exact (List.cons.injEq _ _ _ _).mp hr1 |>.1
                rw [← hr0]
                exact hs2.2.2 e es he
              | cons f fs =>
                rw [hc1, List.cons_append, List.cons.injEq] at he
                rw [← he.1]
                exact hs1.2.2 f fs hc1
    · -- main 4-arc branch
      split at h
      · simp at h
      · split at h
        · simp at h
        · simp only [pure, Except.pure, Except.ok.injEq, Prod.mk.injEq] at h
          obtain ⟨hsol, hrest⟩ := h
          subst hsol
          subst hrest
          refine ⟨⟨_, rfl⟩, by simp, ?_⟩
          intro e es he
          rw [List.cons.injEq] at he
          rw [← he.1]
          rfl

theorem solve_4_shape (A B C D : Pt) (radius : ℝ) (sol : List Element) (rest : List Pt)
    (h : solve_4 A B C D radius = .ok (sol, rest)) : SolveShape A D sol rest := by
  unfold solve_4 at h
  dsimp only at h
  split at h
  · exact solve_Z_shape A B C D radius sol rest h
  · exact solve_U_shape A B C D radius sol rest h

/-- Invariant of the path-compiler loop, relative to the original first
waypoint `P0` and last waypoint `PN`: at least two points remain, the last
remaining point is `PN`, and the accumulated path starts at `P0` (when the
accumulated path is still empty, the next point to be consumed is `P0`). -/
def Inv (P0 PN : Pt) (rp : List Element) (pl : List Pt) : Prop :=
  2 ≤ pl.length ∧ pl.getLast? = some PN ∧
  (rp = [] → pl.head? = some P0) ∧
  (∀ e es, rp = e :: es → e.start = P0)

theorem Inv_step (P0 PN a L : Pt) (rp : List Element) (pl : List Pt)
    (sol : List Element) (rest drop : List Pt)
    (hInv : Inv P0 PN rp pl)
    (hhead : pl.head? = some a)
    (hgl : (L :: drop).getLast? = pl.getLast?)
    (hshape : SolveShape a L sol rest) :
    Inv P0 PN (rp ++ sol) (rest ++ drop) := by
  obtain ⟨⟨x, hrest⟩, hnil, hcons⟩ := hshape
  subst hrest
  obtain ⟨hlen, hlast, hrpnil, hrpcons⟩ := hInv
  refine ⟨?_, ?_, ?_, ?_⟩
  · simp [List.length_append]
  · cases drop with
    | nil =>
      rw [List.append_nil, List.getLast?_cons_cons, hgl]
      exact hlast
    | cons d ds =>
      rw [List.getLast?_append_of_ne_nil _ (by simp : (d :: ds) ≠ [])]
      rw [List.getLast?_cons_cons] at hgl
      rw [hgl]
      exact hlast
  · intro hboth
    rw [List.append_eq_nil] at hboth
    have hx : x = a := by
      have := hnil hboth.2
      rw [List.cons.injEq] at this
      exact this.1
    have hP0 : pl.head? = some P0 := hrpnil hboth.1
    rw [hhead] at hP0
    rw [Option.some.injEq] at hP0
    simp [hx, hP0]
  · intro e es he
    cases hrp : rp with
    | nil =>
      rw [hrp, List.nil_append] at he
      have ha : e.start = a := hcons e es he
      have hP0 : pl.head? = some P0 := hrpnil hrp
      rw [hhead] at hP0
      rw [Option.some.injEq] at hP0
      rw [ha, hP0]
    | cons f fs =>
      rw [hrp, List.cons_append, List.cons.injEq] at he
      rw [← he.1]
      exact hrpcons f fs hrp

theorem crpLoop_invariant (radius : ℝ) :
    ∀ (fuel : ℕ) (rp orp : List Element) (pl opl : List Pt) (cr : Bool)
      (res : List Element) (P0 PN : Pt),
      Inv P0 PN rp pl → Inv P0 PN orp opl →
      crpLoop radius fuel rp orp pl opl cr = .ok res →
      res ≠ [] ∧ (res.map Element.start).head? = some P0 ∧
        (res.map Element.stop).getLast? = some PN := by
  intro fuel
  induction fuel with
  | zero =>
    intro rp orp pl opl cr res P0 PN hInv hInvOld hok
    match pl, hInv with
    | [a, b], hInv =>
      rw [crpLoop_exit] at hok
      rw [Except.ok.injEq] at hok
      subst hok
      have hb : b = PN := by
        have := hInv.2.1
        simp [List.getLast?] at this
        exact this
      refine ⟨by simp, ?_, ?_⟩
      · cases hrp : rp with
        | nil =>
          have := hInv.2.2.1 hrp
          simp at this
          simp [hrp, Element.start, this]
        | cons f fs =>
          have := hInv.2.2.2 f fs hrp
          simp [hrp, this]
      · rw [List.map_append]
        simp only [List.map_cons, List.map_nil]
        rw [List.getLast?_concat]
        simp [Element.stop, hb]
    | a :: b :: c :: tl, hInv =>
      simp only [crpLoop] at hok
      exact absurd hok (by simp)
    | [], hInv => exact absurd hInv.1 (by simp)
    | [a], hInv => exact absurd hInv.1 (by simp)
  | succ f ih =>
    intro rp orp pl opl cr res P0 PN hInv hInvOld hok
    match pl, hInv with
    | [a, b], hInv =>
      rw [crpLoop_exit] at hok
      rw [Except.ok.injEq] at hok
      subst hok
      have hb : b = PN := by
        have := hInv.2.1
        simp [List.getLast?] at this
        exact this
      refine ⟨by simp, ?_, ?_⟩
      · cases hrp : rp with
        | nil =>
          have := hInv.2.2.1 hrp
          simp at this
          simp [hrp, Element.start, this]
        | cons f fs =>
          have := hInv.2.2.2 f fs hrp
          simp [hrp, this]
      · rw [List.map_append]
        simp only [List.map_cons, List.map_nil]
        rw [List.getLast?_concat]
        simp [Element.stop, hb]
    | [], hInv => exact absurd hInv.1 (by simp)
    | [a], hInv => exact absurd hInv.1 (by simp)
    | a :: b :: c :: tl, hInv =>
      simp only [crpLoop] at hok
      cases hs : solve_3 a b c radius with
      | ok s =>
        obtain ⟨sol, rest⟩ := s
        rw [hs] at hok
        dsimp only at hok
        have hshape := solve_3_shape a b c radius sol rest hs
        have hnew : Inv P0 PN (rp ++ sol) (rest ++ tl) :=
          Inv_step P0 PN a c rp (a :: b :: c :: tl) sol rest tl hInv rfl
            (by rw [List.getLast?_cons_cons, List.getLast?_cons_cons]) hshape
        exact ih (rp ++ sol) rp (rest ++ tl) (a :: b :: c :: tl) true res P0 PN
          hnew hInv hok
      | error e =>
        rw [hs] at hok
        cases e with
        | rewind =>
          dsimp only at hok
          cases cr with
          | false => simp at hok
          | true =>
            rw [if_pos rfl] at hok
            match opl, hInvOld with
            | [], hInvOld => exact absurd hok (by simp)
            | [o1], hInvOld => exact absurd hok (by simp)
            | [o1, o2], hInvOld => exact absurd hok (by simp)
            | [o1, o2, o3], hInvOld => exact absurd hok (by simp)
            | o1 :: o2 :: o3 :: o4 :: otl, hInvOld =>
              dsimp only at hok
              cases h4 : solve_4 o1 o2 o3 o4 radius with
              | error e2 =>
                rw [h4] at hok
                simp at hok
              | ok s =>
                obtain ⟨sol, rest⟩ := s
                rw [h4] at hok
                dsimp only at hok
                have hshape := solve_4_shape o1 o2 o3 o4 radius sol rest h4
                have hnew : Inv P0 PN (orp ++ sol) (rest ++ otl) :=
                  Inv_step P0 PN o1 o4 orp (o1 :: o2 :: o3 :: o4 :: otl) sol rest otl
                    hInvOld rfl
                    (by rw [List.getLast?_cons_cons, List.getLast?_cons_cons,
                      List.getLast?_cons_cons]) hshape
                exact ih (orp ++ sol) orp (rest ++ otl) (o1 :: o2 :: o3 :: o4 :: otl)
                  false res P0 PN hnew hInvOld hok
        | forward =>
          dsimp only at hok
          match tl, hInv with
          | [], hInv => exact absurd hok (by simp)
          | d :: tl4, hInv =>
            dsimp only at hok
            cases h4 : solve_4 a b c d radius with
            | error e2 =>
              rw [h4] at hok
              simp at hok
            | ok s =>
              obtain ⟨sol, rest⟩ := s
              rw [h4] at hok
              dsimp only at hok
              have hshape := solve_4_shape a b c d radius sol rest h4
              have hnew : Inv P0 PN (rp ++ sol) (rest ++ tl4) :=
                Inv_step P0 PN a d rp (a :: b :: c :: d :: tl4) sol rest tl4 hInv rfl
                  (by rw [List.getLast?_cons_cons, List.getLast?_cons_cons,
                    List.getLast?_cons_cons]) hshape
              exact ih (rp ++ sol) rp (rest ++ tl4) (a :: b :: c :: d :: tl4)
                false res P0 PN hnew hInv hok
        | notEnough => simp at hok
        | assertErr => simp at hok
        | domain => simp at hok
        | fuel => simp at hok

end Rounding

/-- C1: for every waypoint list of at least two points on which
`compute_rounded_path(points, radius)` returns normally, the returned path is
nonempty, its first element starts at the first waypoint, and its last element
ends at the last waypoint. -/
theorem c1_endpoint_preservation (points : List Pt) (radius : ℝ)
    (path : List Rounding.Element)
    (h2 : 2 ≤ points.length)
    (hok : Rounding.compute_rounded_path points radius = .ok path) :
    path ≠ [] ∧ (path.map Rounding.Element.start).head? = points.head? ∧
      (path.map Rounding.Element.stop).getLast? = points.getLast? := by
  match points, h2 with
  | [a, b], _ =>
    simp only [Rounding.compute_rounded_path] at hok
    rw [Except.ok.injEq] at hok
    subst hok
    refine ⟨by simp, by simp [Rounding.Element.start], by simp [Rounding.Element.stop,
      List.getLast?]⟩
  | a :: b :: c :: tl, _ =>
    simp only [Rounding.compute_rounded_path] at hok
    rw [if_neg (by simp)] at hok
    obtain ⟨PN, hPN⟩ : ∃ PN, (a :: b :: c :: tl).getLast? = some PN :=
      ⟨(a :: b :: c :: tl).getLast (by simp), List.getLast?_eq_getLast _ _⟩
    have hInit : Rounding.Inv a PN [] (a :: b :: c :: tl) :=
      ⟨by simp, hPN, fun _ => rfl, fun e es h => by simp at h⟩
    have := Rounding.crpLoop_invariant radius (a :: b :: c :: tl).length [] []
      (a :: b :: c :: tl) (a :: b :: c :: tl) false path a PN hInit hInit hok
    refine ⟨this.1, ?_, ?_⟩
    · rw [this.2.1]
      rfl
    · rw [this.2.2, hPN]

/-- C1 witness: the two-point list `[(0,0), (5,0)]` compiles to the single
line from the first to the last waypoint. -/
theorem c1_endpoint_preservation_witness :
    [Rounding.Element.line ⟨0, 0⟩ ⟨5, 0⟩] ≠ [] ∧
    ([Rounding.Element.line ⟨0, 0⟩ ⟨5, 0⟩].map Rounding.Element.start).head? =
      ([(⟨0, 0⟩ : Pt), ⟨5, 0⟩] : List Pt).head? ∧
    ([Rounding.Element.line ⟨0, 0⟩ ⟨5, 0⟩].map Rounding.Element.stop).getLast? =
      ([(⟨0, 0⟩ : Pt), ⟨5, 0⟩] : List Pt).getLast? :=
  c1_endpoint_preservation [⟨0, 0⟩, ⟨5, 0⟩] 3 [.line ⟨0, 0⟩ ⟨5, 0⟩] (by simp)
    (by simp [Rounding.compute_rounded_path])

/-- C2: one loop step of the path compiler.  When `solve_3` raises
`ClearanceRewind` with `can_rewind = false` the whole call fails with the
fatal `RuntimeError`; with `can_rewind = true` the accumulated path and the
remaining-points list are restored to their values before the previous solve
(`old_rounded_path`, `old_points_left`) and `solve_4` runs on the first four
restored points — a window including one extra prior point — after which
`can_rewind` is `false`; when `solve_3` raises `ClearanceForward`, `solve_4`
runs directly on the current 4-point window and `can_rewind` becomes
`false`.  (`solve_4` failures propagate out uncaught, as in Python.) -/
theorem c2_rewind_forward_protocol :
    (∀ (radius : ℝ) (f : ℕ) (rp orp : List Rounding.Element) (A B C : Pt)
        (rest3 opl : List Pt),
      Rounding.solve_3 A B C radius = .error .rewind →
      Rounding.crpLoop radius (f + 1) rp orp (A :: B :: C :: rest3) opl false =
        .error .notEnough) ∧
    (∀ (radius : ℝ) (f : ℕ) (rp orp : List Rounding.Element) (A B C : Pt)
        (rest3 : List Pt) (O P Q R : Pt) (orest : List Pt),
      Rounding.solve_3 A B C radius = .error .rewind →
      Rounding.crpLoop radius (f + 1) rp orp (A :: B :: C :: rest3)
          (O :: P :: Q :: R :: orest) true =
        (match Rounding.solve_4 O P Q R radius with
         | .ok (sol, rest) =>
             Rounding.crpLoop radius f (orp ++ sol) orp (rest ++ orest)
               (O :: P :: Q :: R :: orest) false
         | .error e => .error e)) ∧
    (∀ (radius : ℝ) (f : ℕ) (rp orp : List Rounding.Element) (A B C D : Pt)
        (rest4 opl : List Pt) (cr : Bool),
      Rounding.solve_3 A B C radius = .error .forward →
      Rounding.crpLoop radius (f + 1) rp orp (A :: B :: C :: D :: rest4) opl cr =
        (match Rounding.solve_4 A B C D radius with
         | .ok (sol, rest) =>
             Rounding.crpLoop radius f (rp ++ sol) rp (rest ++ rest4)
               (A :: B :: C :: D :: rest4) false
         | .error e => .error e)) := by
  refine ⟨?_, ?_, ?_⟩
  · intro radius f rp orp A B C rest3 opl h
    simp only [Rounding.crpLoop]
    rw [h]
    simp
  · intro radius f rp orp A B C rest3 O P Q R orest h
    simp only [Rounding.crpLoop]
    rw [h]
    simp
  · intro radius f rp orp A B C D rest4 opl cr h
    simp only [Rounding.crpLoop]
    rw [h]

/-- C2 witness: a rewind signal on the very first window (`can_rewind =
false`) makes the whole loop fail with the fatal error. -/
theorem c2_rewind_forward_protocol_witness :
    Rounding.crpLoop 3 1 [] [] [⟨0, 0⟩, ⟨1, 0⟩, ⟨1, 1⟩] [] false =
      .error .notEnough := by
  have hs := solve_3_right_rewind ⟨0, 0⟩ ⟨1, 0⟩ ⟨1, 1⟩ 1 1 3
    (by ext <;> norm_num) (by ext <;> norm_num)
    (by norm_num) (by norm_num) (by norm_num) (by norm_num)
  exact c2_rewind_forward_protocol.1 3 0 [] [] ⟨0, 0⟩ ⟨1, 0⟩ ⟨1, 1⟩ [] [] hs

/-! ### Claim C8 -/

/-- C8 (amended): `compute_tapered_path` applies tapering exactly to the
straight `Line` elements whose length is at least (not strictly exceeds)
`30 + 2 * taper_length`: each such line becomes a `Taper` from the waveguide
width to `taper_width` over `taper_length`, a constant-width middle run at
`taper_width`, and a `Taper` back; every strictly shorter `Line` becomes a
single constant-width path, and `Arc` elements are never tapered (their
sampled points keep the constant waveguide width). -/
theorem c8_taper_application (sampler : Rounding.ArcSampler)
    (path : List Rounding.Element) (w tw tl : ℝ) :
    Rounding.compute_tapered_path sampler path w tw tl =
      path.flatMap (fun e =>
        match e with
        | .line P1 P2 =>
          if 30 + 2 * tl ≤ Rounding.line_length P1 P2 then
            [.taper P1 (P1 + (P2 - P1) / (P2 - P1).norm * tl) w tw,
             .tpath [P1 + (P2 - P1) / (P2 - P1).norm * tl,
                     P2 - (P2 - P1) / (P2 - P1).norm * tl] (.single tw),
             .taper (P2 - (P2 - P1) / (P2 - P1).norm * tl) P2 tw w]
          else [.tpath [P1, P2] (.single w)]
        | .arc P1 C P2 ccw => [.tpath (sampler P1 C P2 ccw) (.single w)]) := by
  unfold Rounding.compute_tapered_path
  congr 1
  funext e
  cases e with
  | line P1 P2 =>
    dsimp only
    unfold Rounding.compute_tapered_line
    dsimp only
    rcases lt_or_le (Rounding.line_length P1 P2) (30 + 2 * tl) with h | h
    · rw [if_pos h, if_neg (not_le.mpr h)]
    · rw [if_neg (not_lt.mpr h), if_pos h]
  | arc P1 C P2 ccw => rfl

/-- C8 counterexample: a line of length exactly `30 + 2 * taper_length`
(here `40` with `taper_length = 5`) is tapered by the code, although it does
not strictly exceed the threshold, so the claim's dichotomy (taper iff length
exceeds the threshold) fails at equality. -/
theorem c8_counterexample :
    Rounding.compute_tapered_path (fun _ _ _ _ => []) [.line ⟨0, 0⟩ ⟨40, 0⟩] 1 2 5 ≠
      [.tpath [⟨0, 0⟩, ⟨40, 0⟩] (.single 1)] ∧
    Rounding.compute_tapered_path (fun _ _ _ _ => []) [.line ⟨0, 0⟩ ⟨40, 0⟩] 1 2 5 =
      [.taper ⟨0, 0⟩ ⟨5, 0⟩ 1 2,
       .tpath [(⟨5, 0⟩ : Pt), ⟨35, 0⟩] (.single 2),
       .taper ⟨35, 0⟩ ⟨40, 0⟩ 2 1] := by
  have hlen : Rounding.line_length (⟨0, 0⟩ : Pt) ⟨40, 0⟩ = 40 := by
    unfold Rounding.line_length
    rw [show (⟨40, 0⟩ : Pt) - ⟨0, 0⟩ = (⟨(40 : ℝ), 0⟩ : Pt) by ext <;> norm_num]
    rw [Pt.norm_mk_right]
    norm_num
  have heval : Rounding.compute_tapered_path (fun _ _ _ _ => [])
      [.line ⟨0, 0⟩ ⟨40, 0⟩] 1 2 5 =
      [.taper ⟨0, 0⟩ ⟨5, 0⟩ 1 2,
       .tpath [(⟨5, 0⟩ : Pt), ⟨35, 0⟩] (.single 2),
       .taper ⟨35, 0⟩ ⟨40, 0⟩ 2 1] := by
    unfold Rounding.compute_tapered_path
    simp only [List.flatMap_cons, List.flatMap_nil, List.append_nil]
    unfold Rounding.compute_tapered_line
    dsimp only
    rw [hlen]
    rw [if_neg (by norm_num)]
    have hu : ((⟨40, 0⟩ : Pt) - ⟨0, 0⟩) / ((⟨40, 0⟩ : Pt) - ⟨0, 0⟩).norm =
        (⟨(1 : ℝ), 0⟩ : Pt) := by
      rw [show (⟨40, 0⟩ : Pt) - ⟨0, 0⟩ = (⟨(40 : ℝ), 0⟩ : Pt) by ext <;> norm_num]
      rw [show Pt.norm ⟨(40 : ℝ), 0⟩ = 40 by rw [Pt.norm_mk_right]; norm_num]
      ext <;> norm_num
    rw [hu]
    rw [show (⟨0, 0⟩ : Pt) + (⟨(1 : ℝ), 0⟩ : Pt) * (5 : ℝ) = (⟨5, 0⟩ : Pt) by
      ext <;> norm_num]
    rw [show (⟨40, 0⟩ : Pt) - (⟨(1 : ℝ), 0⟩ : Pt) * (5 : ℝ) = (⟨35, 0⟩ : Pt) by
      ext <;> norm_num]
  refine ⟨?_, heval⟩
  rw [heval]
  simp

/-! ### Claims C9 and C10 -/

/-- C9: `layout_waveguide_from_points` requires `radius > width / 2`: every
call with `radius <= width / 2` fails with the `AssertionError` before any
points are de-duplicated or any geometry is computed (the error is
unconditional in the waypoints and all later arguments). -/
theorem c9_assert_radius (sampler : Rounding.ArcSampler) (points : List Pt)
    (width radius : ℝ) (tw tl : Option ℝ) (h : radius ≤ width / 2) :
    Rounding.layout_waveguide_from_points sampler points width radius tw tl =
      .error .assertionError := by
  unfold Rounding.layout_waveguide_from_points
  rw [if_pos (not_lt.mpr h)]

/-- C9 witness: `radius = 0.1`, `width = 1` trips the assertion. -/
theorem c9_assert_radius_witness :
    Rounding.layout_waveguide_from_points (fun _ _ _ _ => [])
      [⟨0, 0⟩, ⟨1, 0⟩] 1 0.1 none none = .error .assertionError :=
  c9_assert_radius (fun _ _ _ _ => []) [⟨0, 0⟩, ⟨1, 0⟩] 1 0.1 none none (by norm_num)

/-- C10: `layout_waveguide_from_points` never propagates a path-rounding
failure.  When the assertion passes, the de-duplicated waypoints number at
least two and `compute_rounded_path` fails with any error, the error is
swallowed and the un-rounded (de-duplicated) waypoint polyline is laid out
with the fixed width `0.1` (not the requested width), `smooth=False`, and the
call returns normally. -/
theorem c10_fallback (sampler : Rounding.ArcSampler) (points : List Pt)
    (width radius : ℝ) (tw tl : Option ℝ) (e : Rounding.Err)
    (h1 : width / 2 < radius)
    (h2 : ¬ (Rounding.unique_points points).length < 2)
    (h3 : Rounding.compute_rounded_path (Rounding.unique_points points) radius =
      .error e) :
    Rounding.layout_waveguide_from_points sampler points width radius tw tl =
      .ok [⟨Rounding.unique_points points, .scalar 0.1, false⟩] := by
  unfold Rounding.layout_waveguide_from_points
  rw [if_neg (not_not_intro h1)]
  dsimp only
  rw [if_neg h2, h3]

/-- C10 witness: the right-angle corner `(0,0), (1,0), (1,1)` with radius 3
has insufficient clearance; the rounding error is caught and the raw
waypoints are drawn at width `0.1`. -/
theorem c10_fallback_witness :
    Rounding.layout_waveguide_from_points (fun _ _ _ _ => [])
      [⟨0, 0⟩, ⟨1, 0⟩, ⟨1, 1⟩] 0.5 3 none none =
      .ok [⟨Rounding.unique_points [⟨0, 0⟩, ⟨1, 0⟩, ⟨1, 1⟩], .scalar 0.1, false⟩] := by
  have huniq : Rounding.unique_points [(⟨0, 0⟩ : Pt), ⟨1, 0⟩, ⟨1, 1⟩] =
      [(⟨0, 0⟩ : Pt), ⟨1, 0⟩, ⟨1, 1⟩] := by
    have hc1 : (1e-4 : ℝ) < ((⟨1, 0⟩ : Pt) - ⟨0, 0⟩).norm := by
      rw [show (⟨1, 0⟩ : Pt) - ⟨0, 0⟩ = (⟨(1 : ℝ), 0⟩ : Pt) by ext <;> norm_num]
      rw [Pt.norm_mk_right]
      norm_num
    have hc2 : (1e-4 : ℝ) < ((⟨1, 1⟩ : Pt) - ⟨1, 0⟩).norm := by
      rw [show (⟨1, 1⟩ : Pt) - ⟨1, 0⟩ = (⟨(0 : ℝ), 1⟩ : Pt) by ext <;> norm_num]
      rw [Pt.norm_mk_up]
      norm_num
    unfold Rounding.unique_points
    rw [if_neg (by norm_num)]
    simp [Rounding.uniqLoop, hc1, hc2]
  have hs := solve_3_right_rewind ⟨0, 0⟩ ⟨1, 0⟩ ⟨1, 1⟩ 1 1 3
    (by ext <;> norm_num) (by ext <;> norm_num)
    (by norm_num) (by norm_num) (by norm_num) (by norm_num)
  have hcrp : Rounding.compute_rounded_path
      (Rounding.unique_points [(⟨0, 0⟩ : Pt), ⟨1, 0⟩, ⟨1, 1⟩]) 3 =
      .error .notEnough := by
    rw [huniq]
    simp only [Rounding.compute_rounded_path]
    rw [if_neg (by norm_num)]
    rw [show ([(⟨0, 0⟩ : Pt), ⟨1, 0⟩, ⟨1, 1⟩] : List Pt).length = 2 + 1 by simp]
    simp only [Rounding.crpLoop]
    rw [hs]
    simp
  exact c10_fallback (fun _ _ _ _ => []) [⟨0, 0⟩, ⟨1, 0⟩, ⟨1, 1⟩] 0.5 3 none none
    .notEnough (by norm_num) (by rw [huniq]; norm_num) hcrp

/-! ### Claims C6 and C7 (polygon clipping) -/

namespace PolyClip

theorem rotate_0 (p : Pt) : rotate p ((0 : ℝ) * Real.pi / 2) = p := by
  unfold rotate
  rw [show (0 : ℝ) * Real.pi / 2 = 0 by ring, Real.cos_zero, Real.sin_zero]
  ext <;> simp

theorem rotate_1 (p : Pt) : rotate p ((1 : ℝ) * Real.pi / 2) = ⟨-p.y, p.x⟩ := by
  unfold rotate
  rw [show (1 : ℝ) * Real.pi / 2 = Real.pi / 2 by ring, Real.cos_pi_div_two,
    Real.sin_pi_div_two]
  ext <;> simp

theorem rotate_2 (p : Pt) : rotate p ((2 : ℝ) * Real.pi / 2) = ⟨-p.x, -p.y⟩ := by
  unfold rotate
  rw [show (2 : ℝ) * Real.pi / 2 = Real.pi by ring, Real.cos_pi, Real.sin_pi]
  ext <;> simp

theorem rotate_3 (p : Pt) : rotate p ((3 : ℝ) * Real.pi / 2) = ⟨p.y, -p.x⟩ := by
  unfold rotate
  rw [show (3 : ℝ) * Real.pi / 2 = Real.pi + Real.pi / 2 by ring, Real.cos_add,
    Real.sin_add, Real.cos_pi, Real.sin_pi, Real.cos_pi_div_two, Real.sin_pi_div_two]
  ext <;> simp

theorem ilb_none (p1 p2 : Pt) (xb yb : ℝ × ℝ)
    (h1 : xb.1 ≤ p1.x) (h2 : xb.1 ≤ p2.x) :
    intersect_left_boundary p1 p2 xb yb = none := by
  unfold intersect_left_boundary
  dsimp only
  rcases lt_or_le p1.x p2.x with h | h
  · rw [if_pos h, if_neg (not_lt.mpr h1)]
  · rw [if_neg (not_lt.mpr h), if_neg (not_lt.mpr h2)]

theorem clip_intersect_inside (xb yb : ℝ × ℝ) (p1 p2 : Pt)
    (h1 : within xb yb p1) (h2 : within xb yb p2) :
    clip_intersect p1 p2 xb yb = ([], none) := by
  obtain ⟨h1a, h1b, h1c, h1d⟩ := h1
  obtain ⟨h2a, h2b, h2c, h2d⟩ := h2
  unfold clip_intersect
  rw [show List.range 4 = [0, 1, 2, 3] from rfl]
  simp only [List.foldl_cons, List.foldl_nil, Nat.cast_zero, Nat.cast_one,
    Nat.cast_ofNat]
  rw [rotate_0, rotate_0,
    ilb_none p1 p2 (rotate_bounds90 xb yb 0).1 (rotate_bounds90 xb yb 0).2 h1a h2a]
  dsimp only
  rw [rotate_1, rotate_1]
  rw [ilb_none ⟨-p1.y, p1.x⟩ ⟨-p2.y, p2.x⟩ (rotate_bounds90 xb yb 1).1
    (rotate_bounds90 xb yb 1).2 (by dsimp [rotate_bounds90]; linarith)
    (by dsimp [rotate_bounds90]; linarith)]
  dsimp only
  rw [rotate_2, rotate_2]
  rw [ilb_none ⟨-p1.x, -p1.y⟩ ⟨-p2.x, -p2.y⟩ (rotate_bounds90 xb yb 2).1
    (rotate_bounds90 xb yb 2).2 (by dsimp [rotate_bounds90]; linarith)
    (by dsimp [rotate_bounds90]; linarith)]
  dsimp only
  rw [rotate_3, rotate_3]
  rw [ilb_none ⟨p1.y, -p1.x⟩ ⟨p2.y, -p2.x⟩ (rotate_bounds90 xb yb 3).1
    (rotate_bounds90 xb yb 3).2 (by dsimp [rotate_bounds90]; linarith)
    (by dsimp [rotate_bounds90]; linarith)]

theorem clipLoop_all_inside (xb yb : ℝ × ℝ) (l : List Pt) :
    ∀ (prev : Pt), within xb yb prev → (∀ p ∈ l, within xb yb p) →
      clipLoop xb yb l prev none = l := by
  induction l with
  | nil => intro prev _ _; rfl
  | cons p rest ih =>
    intro prev hprev hin
    have hp : within xb yb p := hin p (by simp)
    show cornersFor xb yb p none (clip_intersect prev p xb yb).2 ++
        (clip_intersect prev p xb yb).1 ++
        (if within xb yb p then [p] else []) ++
        clipLoop xb yb rest p (nextIntersect none (clip_intersect prev p xb yb).2) = _
    rw [clip_intersect_inside xb yb prev p hprev hp]
    rw [if_pos hp]
    show [] ++ [] ++ [p] ++ clipLoop xb yb rest p none = p :: rest
    rw [ih p hp (fun q hq => hin q (by simp [hq]))]
    rfl

end PolyClip

/-- C7: clipping a polygon all of whose vertices lie within the (finite) clip
rectangle returns it unchanged up to the cyclic rotation by one vertex that
the implementation performs, so the vertex set equals the input's vertex
set. -/
theorem c7_clip_inside (pts : List Pt) (x0 x1 y0 y1 : ℝ)
    (hx : x0 ≤ x1) (hy : y0 ≤ y1) (hne : pts ≠ [])
    (hin : ∀ p ∈ pts, x0 ≤ p.x ∧ p.x ≤ x1 ∧ y0 ≤ p.y ∧ p.y ≤ y1) :
    PolyClip.clip pts (x0, x1) (y0, y1) = pts.drop 1 ++ pts.take 1 ∧
    ∀ q : Pt, q ∈ PolyClip.clip pts (x0, x1) (y0, y1) ↔ q ∈ pts := by
  have hmain : PolyClip.clip pts (x0, x1) (y0, y1) = pts.drop 1 ++ pts.take 1 := by
    unfold PolyClip.clip
    dsimp only
    rw [min_eq_left hx, max_eq_right hx, min_eq_left hy, max_eq_right hy]
    match pts, hne, hin with
    | p :: rest, _, hin =>
      have hp : PolyClip.within (x0, x1) (y0, y1) p := hin p (by simp)
      unfold PolyClip.findWithin
      rw [if_pos hp]
      dsimp only
      have hrot : (p :: rest).drop (0 + 1) ++ (p :: rest).take (0 + 1) = rest ++ [p] := by
        simp
      rw [hrot]
      have hlast : (rest ++ [p]).getLast? = some p := List.getLast?_concat _
      rw [hlast]
      exact PolyClip.clipLoop_all_inside (x0, x1) (y0, y1) (rest ++ [p]) p hp
        (fun q hq => by
          rcases List.mem_append.mp hq with h | h
          · exact hin q (by simp [h])
          · rw [List.mem_singleton.mp h]
            exact hp)
  refine ⟨hmain, fun q => ?_⟩
  rw [hmain]
  conv_rhs => rw [← List.take_append_drop 1 pts]
  simp only [List.mem_append]
  exact or_comm

theorem c7_clip_inside_witness :
    PolyClip.clip [⟨0.2, 0.2⟩, ⟨0.8, 0.2⟩, ⟨0.8, 0.8⟩] (0, 1) (0, 1) =
      [⟨0.8, 0.2⟩, ⟨0.8, 0.8⟩, ⟨0.2, 0.2⟩] ∧
    (∀ q : Pt, q ∈ PolyClip.clip [⟨0.2, 0.2⟩, ⟨0.8, 0.2⟩, ⟨0.8, 0.8⟩] (0, 1) (0, 1) ↔
      q ∈ ([⟨0.2, 0.2⟩, ⟨0.8, 0.2⟩, ⟨0.8, 0.8⟩] : List Pt)) := by
  have h := c7_clip_inside [⟨0.2, 0.2⟩, ⟨0.8, 0.2⟩, ⟨0.8, 0.8⟩] 0 1 0 1
    (by norm_num) (by norm_num) (by simp)
    (by
      intro p hp
      simp only [List.mem_cons, List.not_mem_nil, or_false] at hp
      rcases hp with rfl | rfl | rfl <;>
        exact ⟨by norm_num, by norm_num, by norm_num, by norm_num⟩)
  exact ⟨h.1, h.2⟩

/-- C6: the claim that clipping a polygon disjoint from the clip box yields an
empty polygon FAILS on this implementation: when no vertex lies within bounds
the code returns the four clip-box corner vertices, i.e. the full clip box,
never the empty polygon.  Witnessed by a triangle far outside the unit box. -/
theorem c6_disjoint_clip :
    PolyClip.clip [⟨100, 100⟩, ⟨101, 100⟩, ⟨100, 101⟩] (0, 1) (0, 1) =
      [⟨0, 0⟩, ⟨1, 0⟩, ⟨1, 1⟩, ⟨0, 1⟩] ∧
    PolyClip.clip [⟨100, 100⟩, ⟨101, 100⟩, ⟨100, 101⟩] (0, 1) (0, 1) ≠ [] := by
  have hw : ∀ a b : ℝ, (100 : ℝ) ≤ a →
      ¬ PolyClip.within ((0 : ℝ), (1 : ℝ)) ((0 : ℝ), (1 : ℝ)) ⟨a, b⟩ := by
    intro a b ha h
    have := h.2.1
    dsimp at this
    linarith
  have hf : PolyClip.findWithin ((0 : ℝ), (1 : ℝ)) ((0 : ℝ), (1 : ℝ))
      [⟨100, 100⟩, ⟨101, 100⟩, ⟨100, 101⟩] = none := by
    simp only [PolyClip.findWithin]
    rw [if_neg (hw 100 100 (by norm_num)), if_neg (hw 101 100 (by norm_num)),
      if_neg (hw 100 101 (by norm_num))]
    rfl
  have hclip : PolyClip.clip [⟨100, 100⟩, ⟨101, 100⟩, ⟨100, 101⟩] (0, 1) (0, 1) =
      [⟨0, 0⟩, ⟨1, 0⟩, ⟨1, 1⟩, ⟨0, 1⟩] := by
    unfold PolyClip.clip
    dsimp only
    rw [show (min (0 : ℝ) 1) = 0 by norm_num, show (max (0 : ℝ) 1) = 1 by norm_num]
    rw [hf]
    rfl
  exact ⟨hclip, by rw [hclip]; simp⟩

end
